import Mathlib

/-!
Verification of the AdventureWheel markup engine
(`src/adventure_wheel/adventure_wheel.py`).

Python strings are modelled as `List Char`; Python's `None` defaults are
modelled with `Option`.  Python floats are modelled as exact decimal
fractions (`PFloat` below): parsing and printing of decimal literals is
exact, which agrees with CPython on the dyadic values exercised here;
binary rounding (e.g. `0.1 * 3`), `inf`/`nan` and underscore literals are
outside the model.  All definitions are executable and kernel-reducible
(recursion is structural, using explicit fuel where the source uses a
`while` loop), so concrete runs evaluate with `decide`/`rfl`.
-/

/-- Characters of a Python string. -/
abbrev Str := List Char

/-- Char list of a Lean string literal. -/
def strLit (s : String) : Str := s.data

/-- Model of Python `str.startswith`. -/
def pyStartsWith (l pat : Str) : Bool := decide (l.take pat.length = pat)

/-- Model of Python `str.endswith`. -/
def pyEndsWith (l pat : Str) : Bool := decide (l.drop (l.length - pat.length) = pat)


/-- Python's `s[:-k]` slice: all but the last `k` characters. -/
def dropLastN (l : Str) (k : Nat) : Str := l.take (l.length - k)

/-- Index of the first occurrence of `pat` in a string (Python `str.find`;
`none` models the -1 "not found" result). -/
def findSub : Str → Str → Option Nat
  | [], pat => if pat = [] then some 0 else none
  | l@(_ :: t), pat => if pyStartsWith l pat then some 0 else (findSub t pat).map (· + 1)

/-- Model of Python `str.split(sep)` for a one-character separator
(keeps empty parts, never returns an empty list). -/
def splitOnChar (sep : Char) : Str → List Str
  | [] => [[]]
  | c :: r =>
    if c = sep then [] :: splitOnChar sep r
    else match splitOnChar sep r with
         | h :: t => (c :: h) :: t
         | [] => [[c]]

/-- The marker opening delimiter `{{`. -/
def mOpen : Str := ['{', '{']

/-- The marker closing delimiter `}}`. -/
def mClose : Str := ['}', '}']

/-- Position of the first `{{` in the remaining text, the string length
when there is none (as in the source's `find` fix-up). -/
def smStart (left : Str) : Nat := (findSub left mOpen).getD left.length

/-- One past the end of the marker block: two past the first `}}` when
one exists, the end of the text otherwise. -/
def smStop (rest : Str) : Nat :=
  match findSub rest mClose with
  | some e => e + 2
  | none => rest.length

/-- The scanning `while` loop of `split_markers`, with fuel.  Every
iteration consumes at least one character, so any fuel above the string
length is enough; `splitMarkersLoop` below supplies it. -/
def splitMarkersGo : Nat → Str → List Str
  | 0, _ => []
  | _ + 1, [] => []
  | fuel + 1, c :: cs =>
    let start := smStart (c :: cs)
    let rest := (c :: cs).drop start
    let stop := smStop rest
    (if 0 < start then [(c :: cs).take start] else []) ++
      rest.take stop :: splitMarkersGo fuel (rest.drop stop)

/-- Blocks produced by the scanning loop of `split_markers` (before the
final empty-entry removal pass). -/
def splitMarkersLoop (s : Str) : List Str := splitMarkersGo (s.length + 1) s

/-- Model of `split_markers`: scan into blocks, then drop empty entries.
The source removes empty entries with an index-based loop whose exact
(IndexError-aware) model is `split_markers_py` below, proved to agree
with this filter.  `None` input returns `[]`. -/
def split_markers : Option Str → List Str
  | none => []
  | some s => (splitMarkersLoop s).filter (fun b => b ≠ [])

/-- Exact model of the `for i in range(0, size)` empty-entry removal loop
at the end of `split_markers` (the `i -= 1` in the source has no effect on
a `for` loop variable).  First argument is the list being mutated, second
the current index, third the remaining iteration count; `none` models an
IndexError on `blocks[i]`. -/
def delGo : List Str → Nat → Nat → Option (List Str)
  | blocks, _, 0 => some blocks
  | blocks, i, k + 1 =>
    match blocks.get? i with
    | none => none
    | some b =>
      if b = [] then delGo (blocks.eraseIdx i) (i + 1) k
      else delGo blocks (i + 1) k

/-- `split_markers` with the removal pass modelled exactly as in the
source, IndexError (`none`) included. -/
def split_markers_py : Option Str → Option (List Str)
  | none => some []
  | some s => delGo (splitMarkersLoop s) 0 (splitMarkersLoop s).length

/-! ### Python float model -/

/-- Python floats, modelled as exact fractions `num / den` (`den` is a
power of ten for parsed literals).  Operations never normalize;
`pyFloatStr` reduces explicitly when printing.  Exact for decimal
literals and their products, which agrees with CPython on the dyadic
values exercised here; binary rounding (e.g. `0.1 * 3`), `inf`/`nan` and
underscore literals are outside the model. -/
structure PFloat where
  num : Int
  den : Nat
deriving DecidableEq

/-- The Python comparison `x == 1` on a float value. -/
def pyIsOne (m : PFloat) : Bool := m.num = (m.den : Int)

/-- Float multiplication (exact). -/
def pyMul (a b : PFloat) : PFloat := ⟨a.num * b.num, a.den * b.den⟩

/-- Whitespace stripped by `float(str)`. -/
def isPySpace (c : Char) : Bool :=
  c = ' ' ∨ c = '\t' ∨ c = '\n' ∨ c = '\r' ∨ c = Char.ofNat 11 ∨ c = Char.ofNat 12

/-- Strip leading and trailing whitespace. -/
def pyStrip (s : Str) : Str :=
  ((s.dropWhile isPySpace).reverse.dropWhile isPySpace).reverse

/-- Numeric value of a digit string. -/
def digitsToNat (ds : Str) : Nat :=
  ds.foldl (fun a c => 10 * a + (c.toNat - '0'.toNat)) 0

/-- Parse the optional exponent suffix of a float literal; the whole
remainder must be consumed. -/
def pyFloatExp : Str → Option Int
  | [] => some 0
  | c :: r =>
    if c = 'e' ∨ c = 'E' then
      match r with
      | '+' :: ds => if ds ≠ [] ∧ ds.all Char.isDigit then some ((digitsToNat ds : Nat) : Int) else none
      | '-' :: ds => if ds ≠ [] ∧ ds.all Char.isDigit then some (-((digitsToNat ds : Nat) : Int)) else none
      | ds => if ds ≠ [] ∧ ds.all Char.isDigit then some ((digitsToNat ds : Nat) : Int) else none
    else none

/-- Apply a base-ten exponent to a fraction. -/
def pyScale (f : PFloat) : Int → PFloat
  | Int.ofNat k => ⟨f.num * (10 : Int) ^ k, f.den⟩
  | Int.negSucc k => ⟨f.num, f.den * 10 ^ (k + 1)⟩

/-- Parse an unsigned float literal: digits, optional point and fraction
digits (at least one digit overall), optional exponent. -/
def pyFloatCore (t : Str) : Option PFloat :=
  let ip := t.takeWhile Char.isDigit
  let r1 := t.dropWhile Char.isDigit
  match r1 with
  | '.' :: r2 =>
    let fp := r2.takeWhile Char.isDigit
    let r3 := r2.dropWhile Char.isDigit
    if ip = [] ∧ fp = [] then none
    else (pyFloatExp r3).map (pyScale
      ⟨(digitsToNat ip * 10 ^ fp.length + digitsToNat fp : Nat), 10 ^ fp.length⟩)
  | _ =>
    if ip = [] then none
    else (pyFloatExp r1).map (pyScale ⟨(digitsToNat ip : Nat), 1⟩)

/-- Negation. -/
def pyNeg (f : PFloat) : PFloat := ⟨-f.num, f.den⟩

/-- Model of the builtin `float(str)` on decimal literals: optional
surrounding whitespace, optional sign, then digits with optional point
and exponent.  `none` models a ValueError. -/
def pyFloat (s : Str) : Option PFloat :=
  match pyStrip s with
  | '-' :: t => (pyFloatCore t).map pyNeg
  | '+' :: t => pyFloatCore t
  | t => pyFloatCore t

/-- Euclid's algorithm with explicit fuel (`fuel > b` suffices), so that
it reduces in the kernel. -/
def gcdGo : Nat → Nat → Nat → Nat
  | 0, a, _ => a
  | fuel + 1, a, b => if b = 0 then a else gcdGo fuel b (a % b)

/-- Greatest common divisor. -/
def pyGcd (a b : Nat) : Nat := gcdGo (b + 1) a b

/-- Multiplicity of the factor `p` in `n`, with fuel. -/
def factorGo : Nat → Nat → Nat → Nat
  | 0, _, _ => 0
  | fuel + 1, p, n => if 2 ≤ p ∧ 1 ≤ n ∧ n % p = 0 then factorGo fuel p (n / p) + 1 else 0

/-- Multiplicity of the factor `p` in `n`. -/
def factorCount (p n : Nat) : Nat := factorGo n p n

/-- Decimal digits of a natural number. -/
def natToStr (n : Nat) : Str := (Nat.repr n).data

/-- Pad a digit string with leading zeros to at least `k` characters. -/
def padZeros (ds : Str) (k : Nat) : Str := List.replicate (k - ds.length) '0' ++ ds

/-- Model of `str(...)` on a float value: sign, reduced decimal digits
with a point, `.0` for integral values.  Matches CPython wherever the
shortest repr is plain decimal (all values exercised here); the exponent
forms used for huge or tiny magnitudes, and the fallback for a
denominator that is not a power of ten times a power of two or five
(unreachable from parsed literals), are outside the model. -/
def pyFloatStr (f : PFloat) : Str :=
  let sign : Str := if f.num < 0 then ['-'] else []
  let g := pyGcd f.num.natAbs f.den
  if g = 0 then strLit "0.0"
  else
    let n := f.num.natAbs / g
    let d := f.den / g
    let a := factorCount 2 d
    let b := factorCount 5 d
    if d = 2 ^ a * 5 ^ b then
      let k := max a b
      let digits := padZeros (natToStr (n * (10 ^ k / d))) (k + 1)
      sign ++ digits.take (digits.length - k) ++ '.' ::
        (if k = 0 then ['0'] else digits.drop (digits.length - k))
    else
      sign ++ natToStr n ++ '/' :: natToStr d

/-! ### replace_speed_markers -/

/-- One iteration of the chunk loop in `replace_speed_markers`: a chunk
starting with `{{` whose slice `[2:-2]` parses as a float is rebuilt as a
marker carrying the product, anything else passes through (the
ValueError of a failed parse is caught in the source). -/
def rsmChunk (m : PFloat) (chunk : Str) : Str :=
  if pyStartsWith chunk mOpen then
    match pyFloat (dropLastN (chunk.drop 2) 2) with
    | some v => mOpen ++ pyFloatStr (pyMul v m) ++ mClose
    | none => chunk
  else chunk

/-- Body of `replace_speed_markers` on an actual string (the accumulator
loop building `replaced`). -/
def rsmText (s : Str) (m : PFloat) : Str :=
  if pyIsOne m then s
  else (split_markers (some s)).foldl (fun replaced chunk => replaced ++ rsmChunk m chunk) []

/-- Model of `replace_speed_markers`.  With multiplier 1 the argument is
returned as is (including `None`); otherwise the chunks of the tokenized
string are transformed and concatenated. -/
def replace_speed_markers : Option Str → PFloat → Option Str
  | none, m =>
    if pyIsOne m then none
    else some ((split_markers none).foldl (fun replaced chunk => replaced ++ rsmChunk m chunk) [])
  | some s, m => some (rsmText s m)

/-! ### split_into_lines -/

/-- Word list of `split_into_lines`: each block is split on spaces, the
first section kept as is and the rest prefixed back with their space. -/
def wordsOfBlocks (blocks : List Str) : List Str :=
  blocks.flatMap (fun block =>
    match splitOnChar ' ' block with
    | [] => []
    | s0 :: rest => s0 :: rest.map (fun sec => ' ' :: sec))

/-- The packing `while` loop of `split_into_lines`, with fuel.  `done` is
the reversed list of finished lines, `cur` the line under construction
(`lines[-1]` in the source) and `size` its counted width.  The in-loop
hyphenation step and the trailing `while size > width` loop of the source
are textually identical, so both are the first branch here (taken whether
or not words remain).  Any fuel at least `size + sum of (length + 1) over
words + 1` is enough; on exhausted fuel (unreachable) the current state is
finalized. -/
def wrapGo (width : Nat) : Nat → List Str → List Str → Str → Nat → List Str
  | 0, _, done, cur, _ => (cur :: done).reverse
  | fuel + 1, words, done, cur, size =>
    if width < size then
      -- size > width: move the excess to a fresh line, hyphenating
      let size' := size - width + 1
      let leftover := cur.drop (cur.length - size')
      let cur' := cur.take (cur.length - size') ++ ['-']
      wrapGo width fuel words (cur' :: done) leftover size'
    else
      match words with
      | [] => (cur :: done).reverse
      | w :: ws =>
        if pyStartsWith w mOpen then
          -- marker: append without counting towards the line size
          wrapGo width fuel ws done (cur ++ w) size
        else if width < size + w.length then
          -- line full: start a new line, stripping one leading space
          let cur' := if pyStartsWith w [' '] then w.drop 1 else w
          wrapGo width fuel ws (cur :: done) cur' cur'.length
        else
          wrapGo width fuel ws done (cur ++ w) (size + w.length)

/-- Fuel that always suffices for `wrapGo` (each branch strictly
decreases it, see the termination argument in the lemmas). -/
def wrapFuel (words : List Str) (size : Nat) : Nat :=
  size + (words.map (fun w => w.length + 1)).sum + 1

/-- Model of `split_into_lines`: tokenize, split into words, pack
greedily with hyphenation, drop empty lines.  The final empty-line
removal loop of the source advances its index exactly when it does not
delete, which is a filter. -/
def split_into_lines (string : Option Str) (width : Nat) : List Str :=
  match string with
  | none => []
  | some s =>
    if width < 2 then []
    else
      let words := wordsOfBlocks (split_markers (some s))
      (wrapGo width (wrapFuel words 0) words [] [] 0).filter (fun l => l ≠ [])

/-! ### get_characters and format_story_text -/

/-- A character record `[variable-name, name, color, text-speed]`. -/
structure Character where
  var : Str
  cname : Str
  color : Str
  speed : PFloat
deriving DecidableEq

/-- Model of `get_characters`: split each line on `|`; skip it unless
there are exactly 4 sections, the first two nonempty, the third a single
character and the fourth a parseable float (the guards in source order). -/
def get_characters : Option (List Str) → List Character
  | none => []
  | some lines =>
    lines.filterMap (fun line =>
      match splitOnChar '|' line with
      | [a, b, c, d] =>
        if a = [] then none
        else if b = [] then none
        else if c.length ≠ 1 then none
        else (pyFloat d).map (fun q => ⟨a, b, c, q⟩)
      | _ => none)

/-- The reset / speaker-separator marker line `{{0}}`. -/
def sepLine : Str := strLit "\x7b\x7b0\x7d\x7d"

/-- The `for char in chars: if char[0] == cur_char: ... break` lookup. -/
def fstLookup (chars : List Character) (cur : Str) : Option Character :=
  chars.find? (fun ch => ch.var = cur)

/-- The combined dialogue line built for a matched character: reset
marker, color marker, name and colon, default-color marker, speed marker,
then the spoken text with its speed markers rescaled. -/
def fstRender (ch : Character) (text : Str) : Str :=
  strLit "\x7b\x7b0\x7d\x7d\x7b\x7b" ++ ch.color ++ strLit "\x7d\x7d" ++ ch.cname ++
    strLit ": \x7b\x7bd\x7d\x7d" ++ strLit "\x7b\x7b" ++ pyFloatStr ch.speed ++
    strLit "\x7d\x7d" ++ rsmText text ch.speed

/-- Emission step of `format_story_text`: append a `{{0}}` separator when
the current speaker id differs from the previous one, record the id, then
append the line. -/
def fstEmit (st : List Str × Str) (cur next : Str) : List Str × Str :=
  ((if cur ≠ st.2 then st.1 ++ [sepLine] else st.1) ++ [next], cur)

/-- Per-line step of `format_story_text`.  An empty line is skipped; a
line ending in a quote is quoted narration (leading quote) or dialogue;
an unmatched dialogue id appends the raw line and, like the empty line,
bypasses the separator logic and the speaker update (the `continue` in
the source); anything else is narration. -/
def fstStep (chars : List Character) (st : List Str × Str) (line : Str) : List Str × Str :=
  if line = [] then st
  else if pyEndsWith line ['\"'] then
    if pyStartsWith line ['\"'] then
      fstEmit st [] (dropLastN (line.drop 1) 1)
    else
      match findSub line ['\"'] with
      | some index =>
        let cur := line.take index
        let text := dropLastN (line.drop (index + 1)) 1
        match fstLookup chars cur with
        | none => (st.1 ++ [line], st.2)
        | some ch => fstEmit st cur (fstRender ch text)
      | none =>
        -- unreachable: the line ends with a quote, so `find` succeeds;
        -- this mirrors the source's slice arithmetic for find = -1
        match fstLookup chars (dropLastN line 1) with
        | none => (st.1 ++ [line], st.2)
        | some ch => fstEmit st (dropLastN line 1) (fstRender ch (dropLastN line 1))
  else fstEmit st [] line

/-- Model of `format_story_text`: fold the per-line step over the lines,
then trim leading `{{0}}` lines (the final `while ... del` loop). -/
def format_story_text : Option (List Str) → Option (List Character) → List Str
  | none, _ => []
  | some _, none => []
  | some lines, some chars =>
    ((lines.foldl (fstStep chars) ([], [])).1).dropWhile (fun l => l = sepLine)

/-! ### get_link_options and get_decision_text -/

/-- One iteration of the classification loop of `get_link_options`: a
line bracketed by `[[` and `]]` contributes its interior to the options,
anything else is story text. -/
def gloPass (acc : List Str × List Str) (line : Str) : List Str × List Str :=
  if pyStartsWith line (strLit "[[") && pyEndsWith line (strLit "]]") then
    (acc.1, acc.2 ++ [dropLastN (line.drop 2) 2])
  else (acc.1 ++ [line], acc.2)

/-- Model of `get_link_options`, returning both the story text the
source would print and the full options it returns: option interiors are
split on `|` and kept only when that yields exactly two parts. -/
def get_link_options : Option (List Str) → List Str × List (List Str)
  | none => ([], [])
  | some lines =>
    let tp := lines.foldl gloPass ([], [])
    (tp.1, tp.2.foldl (fun acc option =>
      let split := splitOnChar '|' option
      if split.length = 2 then acc ++ [split] else acc) [])

/-- Color chosen for one option by `get_decision_text`: green when the
option has a first entry that occurs in the visited list, blue otherwise
(a missing entry raises IndexError and an absent visited list raises
TypeError, both caught and falling through to blue). -/
def gdtColor (visited_links : Option (List Str)) (option : List Str) : Str :=
  match option.head? with
  | some link =>
    match visited_links with
    | some vs => if link ∈ vs then strLit "\x7b\x7bg\x7d\x7d" else strLit "\x7b\x7bb\x7d\x7d"
    | none => strLit "\x7b\x7bb\x7d\x7d"
  | none => strLit "\x7b\x7bb\x7d\x7d"

/-- The numbering loop of `get_decision_text` over options paired with
their colors (the source walks one index over both lists): an option
without a second entry is skipped (caught IndexError) without advancing
the number. -/
def gdtGo : List (List Str × Str) → Nat → List Str
  | [], _ => []
  | (o, c) :: rest, n =>
    match o.get? 1 with
    | some oname =>
      (strLit "\x7b\x7b0\x7d\x7d" ++ natToStr n ++ strLit ") " ++ c ++ oname ++
        strLit "\x7b\x7bd\x7d\x7d") :: gdtGo rest (n + 1)
    | none => gdtGo rest n

/-- Model of `get_decision_text`. -/
def get_decision_text (options : Option (List (List Str))) (visited_links : Option (List Str)) :
    List Str :=
  match options with
  | none => []
  | some opts => gdtGo (opts.zip (opts.map (gdtColor visited_links))) 1

/-! ### Exception-aware model of format_story_text

The total functions above fix the record type produced by
`get_characters`.  `format_story_text` in the source, however, indexes
into whatever records it is handed, and those accesses are not guarded:
the model below keeps the record fields as dynamically typed values and
propagates IndexError / TypeError, to settle what happens on malformed
registries. -/

/-- A Python exception relevant to these functions. -/
inductive PyErr where
  | indexError
  | typeError
deriving DecidableEq

/-- A dynamically typed record field: a string or a float. -/
inductive PyVal where
  | vstr (s : Str)
  | vfloat (f : PFloat)
deriving DecidableEq

/-- Python `==` between a field and a string (a float never equals a
string, without error). -/
def pyEqStr (v : PyVal) (s : Str) : Bool :=
  match v with
  | .vstr t => t = s
  | .vfloat _ => false

/-- A field used in string concatenation: a float raises TypeError. -/
def pyAsStr : PyVal → Except PyErr Str
  | .vstr t => .ok t
  | .vfloat _ => .error .typeError

/-- Python `str(...)` of a field. -/
def pyValStr : PyVal → Str
  | .vstr t => t
  | .vfloat f => pyFloatStr f

/-- Chunk step of `replace_speed_markers` with a dynamically typed
multiplier: multiplying a parsed float by a string raises TypeError
(which the source's `except ValueError` does not catch). -/
def rsmChunkE (m : PyVal) (chunk : Str) : Except PyErr Str :=
  if pyStartsWith chunk mOpen then
    match pyFloat (dropLastN (chunk.drop 2) 2) with
    | some v =>
      match m with
      | .vfloat f => .ok (mOpen ++ pyFloatStr (pyMul v f) ++ mClose)
      | .vstr _ => .error .typeError
    | none => .ok chunk
  else .ok chunk

/-- The chunk loop of `replace_speed_markers`, propagating errors. -/
def rsmGoE (m : PyVal) : List Str → Str → Except PyErr Str
  | [], acc => .ok acc
  | c :: rest, acc =>
    match rsmChunkE m c with
    | .ok r => rsmGoE m rest (acc ++ r)
    | .error e => .error e

/-- `replace_speed_markers` on a string with a dynamically typed
multiplier (a string multiplier is not `== 1`, so it reaches the loop). -/
def rsmTextE (s : Str) (m : PyVal) : Except PyErr Str :=
  if (match m with | .vfloat f => pyIsOne f | .vstr _ => false) then .ok s
  else rsmGoE m (split_markers (some s)) []

/-- The character lookup over raw records: `char[0]` raises IndexError
on an empty record. -/
def fstLookupE : List (List PyVal) → Str → Except PyErr (Option (List PyVal))
  | [], _ => .ok none
  | ch :: rest, cur =>
    match ch.get? 0 with
    | none => .error .indexError
    | some v => if pyEqStr v cur then .ok (some ch) else fstLookupE rest cur

/-- The combined-line construction over a raw record, with the source's
evaluation order: `character[3]` (rescale), `character[2]`,
`character[1]`, `character[3]` again (`str`). -/
def fstRenderE (ch : List PyVal) (text : Str) : Except PyErr Str :=
  match ch.get? 3 with
  | none => .error .indexError
  | some m =>
    match rsmTextE text m with
    | .error e => .error e
    | .ok text' =>
      match ch.get? 2 with
      | none => .error .indexError
      | some c2 =>
        match pyAsStr c2 with
        | .error e => .error e
        | .ok color =>
          match ch.get? 1 with
          | none => .error .indexError
          | some c1 =>
            match pyAsStr c1 with
            | .error e => .error e
            | .ok cname =>
              match ch.get? 3 with
              | none => .error .indexError
              | some m2 =>
                .ok (strLit "\x7b\x7b0\x7d\x7d\x7b\x7b" ++ color ++ strLit "\x7d\x7d" ++
                  cname ++ strLit ": \x7b\x7bd\x7d\x7d" ++ strLit "\x7b\x7b" ++
                  pyValStr m2 ++ strLit "\x7d\x7d" ++ text')

/-- Per-line step of `format_story_text` over raw records. -/
def fstStepE (chars : List (List PyVal)) (st : List Str × Str) (line : Str) :
    Except PyErr (List Str × Str) :=
  if line = [] then .ok st
  else if pyEndsWith line ['\"'] then
    if pyStartsWith line ['\"'] then .ok (fstEmit st [] (dropLastN (line.drop 1) 1))
    else
      match findSub line ['\"'] with
      | some index =>
        match fstLookupE chars (line.take index) with
        | .error e => .error e
        | .ok none => .ok (st.1 ++ [line], st.2)
        | .ok (some ch) =>
          match fstRenderE ch (dropLastN (line.drop (index + 1)) 1) with
          | .error e => .error e
          | .ok ft => .ok (fstEmit st (line.take index) ft)
      | none =>
        match fstLookupE chars (dropLastN line 1) with
        | .error e => .error e
        | .ok none => .ok (st.1 ++ [line], st.2)
        | .ok (some ch) =>
          match fstRenderE ch (dropLastN line 1) with
          | .error e => .error e
          | .ok ft => .ok (fstEmit st (dropLastN line 1) ft)
  else .ok (fstEmit st [] line)

/-- The line loop of `format_story_text` over raw records. -/
def fstGoE (chars : List (List PyVal)) : List Str → (List Str × Str) → Except PyErr (List Str × Str)
  | [], st => .ok st
  | l :: rest, st =>
    match fstStepE chars st l with
    | .error e => .error e
    | .ok st' => fstGoE chars rest st'

/-- Exception-aware model of `format_story_text` over raw records. -/
def format_story_text_py : Option (List Str) → Option (List (List PyVal)) →
    Except PyErr (List Str)
  | none, _ => .ok []
  | some _, none => .ok []
  | some lines, some chars =>
    match fstGoE chars lines ([], []) with
    | .error e => .error e
    | .ok st => .ok (st.1.dropWhile (fun l => l = sepLine))

/-- Encoding of a well-typed character record as a raw record — exactly
the shape `get_characters` produces. -/
def encodeChar (ch : Character) : List PyVal :=
  [.vstr ch.var, .vstr ch.cname, .vstr ch.color, .vfloat ch.speed]

/-! ### Counted width of a line

The width invariant of the wrapper is about line length once marker
tokens are excluded.  `countedLen` excludes the tokens that start with
`{{` (complete markers and the tolerated dangling one); `cntA` is an
equivalent one-character-at-a-time scan used in proofs. -/

/-- Length of a line with its marker tokens excluded from the count. -/
def countedLen (l : Str) : Nat :=
  (((split_markers (some l)).filter (fun t => ¬ pyStartsWith t mOpen)).map
    List.length).sum

/-- Left-to-right scan computing the non-marker character count, one
character per step.  States: 0 = outside a marker, 1 = outside with a
pending `{` (counted only if no second `{` follows), 2 = inside a
marker, 3 = inside with a pending `}` (the first `}}` leaves). -/
def cntA : Nat → Str → Nat
  | st, [] => if st = 1 then 1 else 0
  | 0, c :: r => if c = '{' then cntA 1 r else 1 + cntA 0 r
  | 1, c :: r => if c = '{' then cntA 2 r else 2 + cntA 0 r
  | 2, c :: r => if c = '}' then cntA 3 r else cntA 2 r
  | 3, c :: r => if c = '}' then cntA 0 r else cntA 2 r
  | _ + 4, _ :: _ => 0

/-- Pieces of the wrapper's line under construction: `true` flags a
piece appended by the zero-width marker branch. -/
def piecesStr (ps : List (Bool × Str)) : Str := (ps.map Prod.snd).flatten

/-- Total length of the width-counted (non-marker) pieces. -/
def piecesWeight (ps : List (Bool × Str)) : Nat :=
  ((ps.filter (fun p => ¬ p.1)).map (fun p => p.2.length)).sum

/-- Executable substring test (used to refute occurrences). -/
def containsSub (l m : Str) : Bool :=
  (List.range (l.length + 1)).any (fun i => pyStartsWith (l.drop i) m)

/-- A string in which `}}` occurs only as the final two characters (or
not at all). -/
def jjOnlyTerminal (m : Str) : Prop :=
  ∀ j, pyStartsWith (m.drop j) mClose = true → j + 2 = m.length

/-- Marker-piece shape: starts with `{{` and closes only at its very end,
if at all — the shape of every `{{`-initial word the wrapper appends
without counting. -/
def markerShaped (m : Str) : Prop :=
  pyStartsWith m mOpen = true ∧ jjOnlyTerminal m

/-- No occurrence of `{{` anywhere. -/
def noOpen (t : Str) : Prop :=
  ∀ j, pyStartsWith (t.drop j) mOpen = false

/-- Occurrence of `m` as a contiguous substring of `l`. -/
def occursIn (m l : Str) : Prop := ∃ x y, l = x ++ m ++ y

/-- No marker token of `s` contains a space (the hypothesis under which
the wrapper never splits a marker). -/
def spaceFreeMarkers (s : Str) : Prop :=
  ∀ t ∈ split_markers (some s), pyStartsWith t mOpen = true → ' ' ∉ t

/-! ### Lemmas about the tokenizer -/

theorem findSub_some_le {l pat : Str} {i : Nat} (hpat : pat ≠ [])
    (h : findSub l pat = some i) : i + pat.length ≤ l.length := by
  induction l generalizing i with
  | nil =>
    simp only [findSub, if_neg hpat] at h
    cases h
  | cons c t ih =>
    simp only [findSub] at h
    split at h
    · rename_i hs
      cases h
      have hts := of_decide_eq_true hs
      have hlen : pat.length ≤ (c :: t).length := by
        have hl := congrArg List.length hts
        simp only [List.length_take] at hl
        omega
      simpa using hlen
    · rcases Option.map_eq_some'.mp h with ⟨j, hj, rfl⟩
      have := ih hj
      simp only [List.length_cons]
      omega

theorem smStart_le (left : Str) : smStart left ≤ left.length := by
  unfold smStart
  rcases h : findSub left mOpen with _ | i
  · simp
  · simp only [Option.getD_some]
    have := findSub_some_le (show mOpen ≠ [] by simp [mOpen]) h
    simp [mOpen] at this
    omega

theorem smStop_pos {rest : Str} (h : rest ≠ []) : 1 ≤ smStop rest := by
  unfold smStop
  rcases hfc : findSub rest mClose with _ | e
  · simpa using List.length_pos.mpr h
  · simp only []
    omega

theorem smStop_le (rest : Str) : smStop rest ≤ rest.length := by
  unfold smStop
  rcases hfc : findSub rest mClose with _ | e
  · simp
  · simp only []
    have := findSub_some_le (show mClose ≠ [] by simp [mClose]) hfc
    simp [mClose] at this
    omega

theorem smConsume (c : Char) (cs : List Char) :
    (((c :: cs).drop (smStart (c :: cs))).drop
        (smStop ((c :: cs).drop (smStart (c :: cs))))).length < (c :: cs).length := by
  have hpos : 0 < (c :: cs).length := by simp
  rcases Nat.eq_zero_or_pos (smStart (c :: cs)) with h0 | hpos'
  · have hrest : (c :: cs).drop (smStart (c :: cs)) = c :: cs := by rw [h0]; rfl
    rw [hrest]
    have h1 := smStop_pos (show c :: cs ≠ [] by simp)
    simp only [List.length_drop]
    omega
  · have hle := smStart_le (c :: cs)
    simp only [List.length_drop]
    omega

theorem splitMarkersGo_join : ∀ (fuel : Nat) (s : Str), s.length < fuel →
    (splitMarkersGo fuel s).flatten = s := by
  intro fuel
  induction fuel with
  | zero => intro s h; exact absurd h (Nat.not_lt_zero _)
  | succ fuel ih =>
    intro s h
    match s with
    | [] => simp [splitMarkersGo]
    | c :: cs =>
      simp only [splitMarkersGo]
      have hrec := ih (((c :: cs).drop (smStart (c :: cs))).drop
          (smStop ((c :: cs).drop (smStart (c :: cs)))))
        (Nat.lt_of_lt_of_le (smConsume c cs) (Nat.lt_succ_iff.mp h))
      by_cases h0 : 0 < smStart (c :: cs)
      · simp only [if_pos h0, List.flatten_cons, List.flatten_append, List.flatten,
          List.append_assoc, hrec, List.append_nil]
        rw [List.take_append_drop, List.take_append_drop]
      · have hz : smStart (c :: cs) = 0 := Nat.eq_zero_of_not_pos h0
        simp only [if_neg h0, List.nil_append, List.flatten_cons, hrec]
        rw [List.take_append_drop, hz]
        rfl

theorem flatten_filter_ne_nil (l : List Str) :
    (l.filter (fun b => b ≠ [])).flatten = l.flatten := by
  induction l with
  | nil => rfl
  | cons h t ih =>
    by_cases hh : h = []
    · subst hh
      simpa using ih
    · have ih' := ih
      simp only [ne_eq, decide_not] at ih' ⊢
      simp [List.filter_cons, hh, ih']

theorem splitMarkersGo_nil (fuel : Nat) : splitMarkersGo fuel [] = [] := by
  cases fuel <;> rfl

theorem splitMarkersGo_shape : ∀ (fuel : Nat) (s : Str), s.length < fuel →
    (∀ b ∈ splitMarkersGo fuel s, b ≠ []) ∨
      (∃ bs, splitMarkersGo fuel s = bs ++ [[]] ∧ ∀ b ∈ bs, b ≠ []) := by
  intro fuel
  induction fuel with
  | zero => intro s h; exact absurd h (Nat.not_lt_zero _)
  | succ fuel ih =>
    intro s h
    match s with
    | [] => left; simp [splitMarkersGo]
    | c :: cs =>
      have hrec := ih (((c :: cs).drop (smStart (c :: cs))).drop
          (smStop ((c :: cs).drop (smStart (c :: cs)))))
        (Nat.lt_of_lt_of_le (smConsume c cs) (Nat.lt_succ_iff.mp h))
      simp only [splitMarkersGo]
      by_cases hrest : (c :: cs).drop (smStart (c :: cs)) = []
      · -- no `{{` remainder: the loop appends the whole text and then an empty block
        have hstartpos : 0 < smStart (c :: cs) := by
          by_contra hz
          have hz0 : smStart (c :: cs) = 0 := Nat.eq_zero_of_not_pos hz
          rw [hz0] at hrest
          simp at hrest
        have hpre : (c :: cs).take (smStart (c :: cs)) ≠ [] := by
          simp [List.take_eq_nil_iff]
          omega
        right
        refine ⟨[(c :: cs).take (smStart (c :: cs))], ?_, ?_⟩
        · rw [hrest]
          rw [if_pos hstartpos]
          simp [splitMarkersGo_nil]
        · intro b hb
          simp at hb
          rw [hb]
          exact hpre
      · have hstop1 := smStop_pos hrest
        have hlt : smStart (c :: cs) < cs.length + 1 := by
          by_contra hge
          push_neg at hge
          exact hrest (List.drop_eq_nil_of_le (by simpa using hge))
        have hmarker : ((c :: cs).drop (smStart (c :: cs))).take
            (smStop ((c :: cs).drop (smStart (c :: cs)))) ≠ [] := by
          simp [List.take_eq_nil_iff]
          omega
        have hpre : ∀ _ : 0 < smStart (c :: cs), (c :: cs).take (smStart (c :: cs)) ≠ [] := by
          intro hp
          simp [List.take_eq_nil_iff]
          omega
        rcases hrec with hall | ⟨bs, heq, hbs⟩
        · left
          intro b hb
          rcases List.mem_append.mp hb with hb1 | hb2
          · by_cases h0 : 0 < smStart (c :: cs)
            · rw [if_pos h0] at hb1
              simp at hb1
              rw [hb1]
              exact hpre h0
            · rw [if_neg h0] at hb1
              simp at hb1
          · rcases List.mem_cons.mp hb2 with hb3 | hb4
            · rw [hb3]; exact hmarker
            · exact hall b hb4
        · right
          refine ⟨(if 0 < smStart (c :: cs) then [(c :: cs).take (smStart (c :: cs))] else []) ++
            ((c :: cs).drop (smStart (c :: cs))).take
              (smStop ((c :: cs).drop (smStart (c :: cs)))) :: bs, ?_, ?_⟩
          · rw [heq]
            simp
          · intro b hb
            rcases List.mem_append.mp hb with hb1 | hb2
            · by_cases h0 : 0 < smStart (c :: cs)
              · rw [if_pos h0] at hb1
                simp at hb1
                rw [hb1]
                exact hpre h0
              · rw [if_neg h0] at hb1
                simp at hb1
            · rcases List.mem_cons.mp hb2 with hb3 | hb4
              · rw [hb3]; exact hmarker
              · exact hbs b hb4

theorem filter_ne_nil_self {l : List Str} (h : ∀ b ∈ l, b ≠ []) :
    l.filter (fun b => b ≠ []) = l := by
  induction l with
  | nil => rfl
  | cons b t ih =>
    rw [List.filter_cons, if_pos (by simpa using h b (List.mem_cons_self b t))]
    rw [ih (fun x hx => h x (List.mem_cons_of_mem b hx))]

theorem filter_append_nil {bs : List Str} (h : ∀ b ∈ bs, b ≠ []) :
    (bs ++ [[]]).filter (fun b => b ≠ []) = bs := by
  rw [List.filter_append, filter_ne_nil_self h]
  simp

theorem eraseIdx_append_singleton (bs : List Str) :
    (bs ++ [([] : Str)]).eraseIdx bs.length = bs := by
  induction bs with
  | nil => rfl
  | cons b t ih => simpa [List.eraseIdx] using ih

theorem delGo_clean : ∀ (k : Nat) (blocks : List Str) (i : Nat),
    i + k ≤ blocks.length → (∀ b ∈ blocks, b ≠ []) →
    delGo blocks i k = some blocks := by
  intro k
  induction k with
  | zero => intro blocks i _ _; rfl
  | succ k ih =>
    intro blocks i hik hne
    have hi : i < blocks.length := by omega
    have hget : blocks.get? i = some (blocks.get ⟨i, hi⟩) := List.get?_eq_get hi
    have hmem : blocks.get ⟨i, hi⟩ ∈ blocks := List.get_mem _ _ _
    simp only [delGo, hget]
    rw [if_neg (hne _ hmem)]
    exact ih blocks (i + 1) (by omega) hne

theorem delGo_trailing : ∀ (k : Nat) (bs : List Str) (i : Nat),
    i + k = bs.length + 1 → i ≤ bs.length → (∀ b ∈ bs, b ≠ []) →
    delGo (bs ++ [[]]) i k = some bs := by
  intro k
  induction k with
  | zero => intro bs i hik hile _; omega
  | succ k ih =>
    intro bs i hik hile hne
    by_cases hi : i < bs.length
    · have hget : (bs ++ [([] : Str)]).get? i = some (bs.get ⟨i, hi⟩) := by
        rw [List.get?_append hi]
        exact List.get?_eq_get hi
      have hmem : bs.get ⟨i, hi⟩ ∈ bs := List.get_mem _ _ _
      simp only [delGo, hget]
      rw [if_neg (hne _ hmem)]
      exact ih bs (i + 1) (by omega) (by omega) hne
    · have hieq : i = bs.length := by omega
      have hk : k = 0 := by omega
      subst hieq hk
      have hget : (bs ++ [([] : Str)]).get? bs.length = some [] := by
        rw [List.get?_append_right (Nat.le_refl _)]
        simp
      simp only [delGo, hget]
      simp [eraseIdx_append_singleton]

/-- Fidelity of the empty-entry removal model: the exact index-based loop
of the source never hits an IndexError and computes the same blocks as
the filter used in `split_markers`. -/
theorem split_markers_py_agrees (s : Option Str) :
    split_markers_py s = some (split_markers s) := by
  match s with
  | none => rfl
  | some s =>
    show delGo (splitMarkersGo (s.length + 1) s) 0 (splitMarkersGo (s.length + 1) s).length
        = some ((splitMarkersGo (s.length + 1) s).filter (fun b => b ≠ []))
    rcases splitMarkersGo_shape (s.length + 1) s (Nat.lt_succ_self _) with hall | ⟨bs, heq, hbs⟩
    · rw [filter_ne_nil_self hall]
      exact delGo_clean _ _ _ (by omega) hall
    · rw [heq, filter_append_nil hbs]
      apply delGo_trailing
      · simp
      · simp
      · exact hbs

/-- C1. Tokenizer round-trip: concatenating, in order, the tokens that
`split_markers` returns for a string yields that string back; on the empty
string the token list is empty (so its concatenation is empty). -/
theorem C1_tokenizer_round_trip :
    (∀ s : Str, (split_markers (some s)).flatten = s) ∧
      split_markers (some []) = [] := by
  constructor
  · intro s
    have h1 : (splitMarkersLoop s).flatten = s :=
      splitMarkersGo_join (s.length + 1) s (Nat.lt_succ_self _)
    calc (split_markers (some s)).flatten
        = (splitMarkersLoop s).flatten := flatten_filter_ne_nil _
      _ = s := h1
  · rfl

/-! ### The speed rescaler: C4 and C10 -/

theorem foldl_append_flatten (f : Str → Str) : ∀ (l : List Str) (acc : Str),
    l.foldl (fun r c => r ++ f c) acc = acc ++ (l.map f).flatten := by
  intro l
  induction l with
  | nil => intro acc; simp
  | cons c rest ih =>
    intro acc
    simp only [List.foldl_cons, List.map_cons, List.flatten_cons, ih, List.append_assoc]

theorem marker_slice_core (core : Str) :
    dropLastN ((mOpen ++ core ++ mClose).drop 2) 2 = core := by
  have h1 : (mOpen ++ core ++ mClose).drop 2 = core ++ mClose := by
    simp [mOpen, mClose]
  rw [h1]
  unfold dropLastN
  have h2 : (core ++ mClose).length - 2 = core.length := by
    simp [mClose]
  rw [h2]
  exact List.take_left _ _

theorem rsmChunk_marker {core : Str} {v : PFloat} (m : PFloat)
    (hv : pyFloat core = some v) :
    rsmChunk m (mOpen ++ core ++ mClose) = mOpen ++ pyFloatStr (pyMul v m) ++ mClose := by
  unfold rsmChunk
  rw [marker_slice_core, hv]
  rw [if_pos]
  unfold pyStartsWith
  simp [mOpen]

/-- C4. Speed rescaling contract: a multiplier equal to 1 returns the
argument unchanged (`None` included); any other multiplier rebuilds the
string as the concatenation of its tokens where each token starting with
`{{` whose `[2:-2]` slice parses as a float becomes a marker carrying the
product, and every other token (color marker, malformed marker, plain
text) passes through; for a well-formed marker `{{core}}` the parsed
slice is exactly the payload `core`. -/
theorem C4_rescale_contract :
    (∀ (s : Option Str) (m : PFloat), pyIsOne m = true → replace_speed_markers s m = s) ∧
    (∀ (s : Str) (m : PFloat), pyIsOne m = false →
      replace_speed_markers (some s) m =
        some (((split_markers (some s)).map (fun t =>
          if pyStartsWith t mOpen then
            match pyFloat (dropLastN (t.drop 2) 2) with
            | some v => mOpen ++ pyFloatStr (pyMul v m) ++ mClose
            | none => t
          else t)).flatten)) ∧
    (∀ (core : Str) (v m : PFloat), pyFloat core = some v →
      rsmChunk m (mOpen ++ core ++ mClose) = mOpen ++ pyFloatStr (pyMul v m) ++ mClose) := by
  refine ⟨?_, ?_, ?_⟩
  · intro s m h
    match s with
    | none => simp [replace_speed_markers, h]
    | some s => simp [replace_speed_markers, rsmText, h]
  · intro s m h
    show some (rsmText s m) = _
    unfold rsmText
    rw [if_neg (by simp [h])]
    rw [foldl_append_flatten (rsmChunk m)]
    rfl
  · intro core v m hv
    exact rsmChunk_marker m hv

/-- C4 witness: the rescaler identity at multiplier 1 and the spec's
concrete example at multiplier 2, obtained from the theorem. -/
theorem C4_rescale_contract_witness :
    replace_speed_markers (some (strLit "\x7b\x7b1\x7d\x7dHere's some \x7b\x7b0.5\x7d\x7dtext.")) ⟨1, 1⟩ =
      some (strLit "\x7b\x7b1\x7d\x7dHere's some \x7b\x7b0.5\x7d\x7dtext.") ∧
    replace_speed_markers (some (strLit "\x7b\x7b1\x7d\x7dHere's some \x7b\x7b0.5\x7d\x7dtext.")) ⟨2, 1⟩ =
      some (strLit "\x7b\x7b2.0\x7d\x7dHere's some \x7b\x7b1.0\x7d\x7dtext.") := by
  constructor
  · exact C4_rescale_contract.1 _ ⟨1, 1⟩ (by decide)
  · rw [C4_rescale_contract.2.1 _ ⟨2, 1⟩ (by decide)]
    decide

/-- C10. Unterminated-marker rewriting: when the final token of a string
is a `{{`-initial token and its `[2:-2]` slice — which cuts two payload
characters, since there is no closing `}}` — parses as a float, a
multiplier other than 1 replaces that token with a completed marker
carrying the product; `replace_speed_markers "{{5.25" 2 = "{{10.0}}"`
(the slice is `5.`). -/
theorem C10_dangling_marker_rescaled (s : Str) (toks : List Str) (t : Str) (m v : PFloat)
    (hm : pyIsOne m = false)
    (hsplit : split_markers (some s) = toks ++ [t])
    (hopen : pyStartsWith t mOpen = true)
    (hv : pyFloat (dropLastN (t.drop 2) 2) = some v) :
    replace_speed_markers (some s) m =
      some ((toks.map (rsmChunk m)).flatten ++ (mOpen ++ pyFloatStr (pyMul v m) ++ mClose)) := by
  show some (rsmText s m) = _
  unfold rsmText
  rw [if_neg (by simp [hm]), hsplit]
  rw [foldl_append_flatten (rsmChunk m)]
  simp only [List.map_append, List.map_cons, List.map_nil, List.flatten_append,
    List.flatten_cons, List.flatten_nil, List.nil_append, List.append_nil]
  unfold rsmChunk
  rw [hopen, hv]
  simp

/-- C10 witness: the claim's example, obtained from the theorem. -/
theorem C10_dangling_marker_rescaled_witness :
    replace_speed_markers (some (strLit "\x7b\x7b5.25")) ⟨2, 1⟩ =
      some (strLit "\x7b\x7b10.0\x7d\x7d") := by
  have h := C10_dangling_marker_rescaled (strLit "\x7b\x7b5.25") []
    (strLit "\x7b\x7b5.25") ⟨2, 1⟩ ⟨5, 1⟩ (by decide) (by decide) (by decide) (by decide)
  rw [h]
  decide

/-! ### Link extraction: C3 -/

theorem gloPass_foldl : ∀ (lines : List Str) (t o : List Str),
    lines.foldl gloPass (t, o) =
      (t ++ lines.filter (fun l => ¬ (pyStartsWith l (strLit "[[") && pyEndsWith l (strLit "]]"))),
       o ++ (lines.filter (fun l => pyStartsWith l (strLit "[[") && pyEndsWith l (strLit "]]"))).map
         (fun l => dropLastN (l.drop 2) 2)) := by
  intro lines
  induction lines with
  | nil => intro t o; simp
  | cons l rest ih =>
    intro t o
    by_cases hc : (pyStartsWith l (strLit "[[") && pyEndsWith l (strLit "]]")) = true
    · have hstep : gloPass (t, o) l = (t, o ++ [dropLastN (l.drop 2) 2]) := by
        unfold gloPass
        rw [if_pos hc]
      rw [List.foldl_cons, hstep, ih]
      have hc' : pyStartsWith l (strLit "[[") = true ∧ pyEndsWith l (strLit "]]") = true := by
        simpa using hc
      simp [List.filter_cons, hc'.1, hc'.2]
    · have hstep : gloPass (t, o) l = (t ++ [l], o) := by
        unfold gloPass
        rw [if_neg hc]
      rw [List.foldl_cons, hstep, ih]
      simp only [List.filter_cons]
      rw [Bool.not_eq_true] at hc
      simp [hc]

theorem glo_options_foldl : ∀ (opts : List Str) (acc : List (List Str)),
    opts.foldl (fun acc option =>
        let split := splitOnChar '|' option
        if split.length = 2 then acc ++ [split] else acc) acc =
      acc ++ opts.filterMap (fun o =>
        if (splitOnChar '|' o).length = 2 then some (splitOnChar '|' o) else none) := by
  intro opts
  induction opts with
  | nil => intro acc; simp
  | cons o rest ih =>
    intro acc
    rw [List.foldl_cons]
    by_cases hc : (splitOnChar '|' o).length = 2
    · have hinit : (let split := splitOnChar '|' o
          ; if split.length = 2 then acc ++ [split] else acc) = acc ++ [splitOnChar '|' o] := by
        simp [hc]
      rw [hinit, ih]
      simp [List.filterMap_cons, hc]
    · have hinit : (let split := splitOnChar '|' o
          ; if split.length = 2 then acc ++ [split] else acc) = acc := by
        simp [hc]
      rw [hinit, ih]
      simp [List.filterMap_cons, hc]

/-- C3 counterexample: for the directive `[[a|b|c]]` the claim's
"interior split once on `|`" yields the two parts `a` and `b|c`, so the
claim surfaces the option `(a, b|c)`; the source splits on every `|`,
obtains three parts, and discards the directive. -/
theorem C3_counterexample :
    (get_link_options (some [strLit "[[a|b|c]]"])).2 = [] ∧
      (get_link_options (some [strLit "[[a|b|c]]"])).2 ≠ [[strLit "a", strLit "b|c"]] := by
  decide

/-- C3 amended: a line is a link directive iff it starts with `[[` and
ends with `]]`; the interior of each directive is split on every `|` and
kept as an option exactly when that yields two parts (so interiors with
no `|` or more than one `|` are discarded without error); every
non-directive line is narrative text in its original order. -/
theorem C3_link_extraction (lines : List Str) :
    get_link_options (some lines) =
      (lines.filter (fun l => ¬ (pyStartsWith l (strLit "[[") && pyEndsWith l (strLit "]]"))),
       (lines.filter (fun l => pyStartsWith l (strLit "[[") && pyEndsWith l (strLit "]]"))).filterMap
         (fun l =>
           if (splitOnChar '|' (dropLastN (l.drop 2) 2)).length = 2
           then some (splitOnChar '|' (dropLastN (l.drop 2) 2)) else none)) := by
  show (let tp := lines.foldl gloPass ([], []);
    (tp.1, tp.2.foldl (fun acc option =>
      let split := splitOnChar '|' option
      if split.length = 2 then acc ++ [split] else acc) [])) = _
  rw [gloPass_foldl lines [] []]
  simp only [List.nil_append]
  rw [glo_options_foldl]
  simp only [List.nil_append, List.filterMap_map]
  rfl

/-! ### The decision menu: C7 -/

theorem gdtGo_spec (visited_links : Option (List Str)) :
    ∀ (opts : List (List Str)) (n : Nat),
      gdtGo (opts.zip (opts.map (gdtColor visited_links))) n =
        (opts.filter (fun o => 2 ≤ o.length)).mapIdx (fun j o =>
          strLit "\x7b\x7b0\x7d\x7d" ++ natToStr (n + j) ++ strLit ") " ++
            gdtColor visited_links o ++ (o.get? 1).getD [] ++ strLit "\x7b\x7bd\x7d\x7d") := by
  intro opts
  induction opts with
  | nil => intro n; rfl
  | cons o rest ih =>
    intro n
    simp only [List.map_cons, List.zip_cons_cons]
    rcases hget : o.get? 1 with _ | oname
    · have hlen : o.length ≤ 1 := by simpa using List.get?_eq_none.mp hget
      show gdtGo _ n = _
      unfold gdtGo
      rw [hget]
      rw [ih n]
      rw [List.filter_cons, if_neg (by simpa using by omega)]
    · have hlen : 2 ≤ o.length := by
        obtain ⟨hlt, _⟩ := List.get?_eq_some.mp hget
        omega
      show gdtGo _ n = _
      unfold gdtGo
      rw [hget]
      rw [ih (n + 1)]
      rw [List.filter_cons, if_pos (by simpa using hlen)]
      rw [List.mapIdx_cons]
      have hj : ∀ j : Nat, n + 1 + j = n + (j + 1) := fun j => by omega
      simp only [hj, hget, Option.getD_some, Nat.add_zero]

/-- C7. Decision menu: every option with a second entry (the label)
yields the line `{{0}}<n>) <color><label>{{d}}` where `<n>` counts only
emitted entries starting from 1 (malformed or missing entries are
skipped without affecting the numbering), and the color is green exactly
when the option's first entry occurs in the visited list; with an absent
(`None`) visited list nothing counts as visited, so every entry is blue;
absent options give the empty menu. -/
theorem C7_decision_menu :
    (∀ (options : List (List Str)) (visited_links : Option (List Str)),
      get_decision_text (some options) visited_links =
        (options.filter (fun o => 2 ≤ o.length)).mapIdx (fun j o =>
          strLit "\x7b\x7b0\x7d\x7d" ++ natToStr (1 + j) ++ strLit ") " ++
            gdtColor visited_links o ++ (o.get? 1).getD [] ++ strLit "\x7b\x7bd\x7d\x7d")) ∧
    (∀ (option : List Str) (link : Str) (vs : List Str),
      option.get? 0 = some link →
      (gdtColor (some vs) option = (if link ∈ vs then strLit "\x7b\x7bg\x7d\x7d"
        else strLit "\x7b\x7bb\x7d\x7d"))) ∧
    (∀ option : List Str, gdtColor none option = strLit "\x7b\x7bb\x7d\x7d") ∧
    (∀ visited_links, get_decision_text none visited_links = []) := by
  refine ⟨?_, ?_, ?_, ?_⟩
  · intro options visited_links
    exact gdtGo_spec visited_links options 1
  · intro option link vs hget
    unfold gdtColor
    rw [show option.head? = some link from by rwa [← List.get?_zero]]
  · intro option
    unfold gdtColor
    rcases option.head? with _ | l
    · rfl
    · rfl
  · intro visited_links
    rfl

/-- C7 witness: the second and third parts applied at concrete options
(a visited and an unvisited target, and the absent visited list). -/
theorem C7_decision_menu_witness :
    gdtColor (some [strLit "a", strLit "b"]) [strLit "b", strLit "B"] = strLit "\x7b\x7bg\x7d\x7d" ∧
    gdtColor (some [strLit "a"]) [strLit "b", strLit "B"] = strLit "\x7b\x7bb\x7d\x7d" ∧
    gdtColor none [strLit "b", strLit "B"] = strLit "\x7b\x7bb\x7d\x7d" := by
  refine ⟨?_, ?_, ?_⟩
  · rw [C7_decision_menu.2.1 [strLit "b", strLit "B"] (strLit "b") _ (by decide)]
    decide
  · rw [C7_decision_menu.2.1 [strLit "b", strLit "B"] (strLit "b") _ (by decide)]
    decide
  · exact C7_decision_menu.2.2.1 _

/-! ### Dialogue formatting: C5 -/

theorem dropWhile_head_ne {p : Str → Bool} : ∀ (l : List Str) (a : Str),
    (l.dropWhile p).head? = some a → p a = false := by
  intro l
  induction l with
  | nil => intro a h; cases h
  | cons x rest ih =>
    intro a h
    by_cases hx : p x = true
    · rw [List.dropWhile_cons_of_pos hx] at h
      exact ih a h
    · rw [List.dropWhile_cons_of_neg hx] at h
      simp only [List.head?_cons, Option.some_inj] at h
      subst h
      simpa using hx

theorem fstRender_ne_sepLine (ch : Character) (text : Str) :
    fstRender ch text ≠ sepLine := by
  intro heq
  have hl := congrArg List.length heq
  simp [fstRender, sepLine, strLit, List.length_append] at hl

theorem line_ne_nil_of_ends_quote {line : Str} (h : pyEndsWith line ['\"'] = true) :
    line ≠ [] := by
  intro hnil
  rw [hnil] at h
  simp [pyEndsWith] at h

theorem findSub_zero : ∀ {l pat : Str}, findSub l pat = some 0 → pyStartsWith l pat = true := by
  intro l pat h
  match l with
  | [] =>
    simp only [findSub] at h
    split at h
    · rename_i hp
      subst hp
      rfl
    · cases h
  | c :: t =>
    simp only [findSub] at h
    split at h
    · assumption
    · rcases Option.map_eq_some'.mp h with ⟨j, _, hj⟩
      omega

theorem take_ne_nil_of_not_quote_start {line : Str} {i : Nat}
    (hends : pyEndsWith line ['\"'] = true)
    (hstarts : pyStartsWith line ['\"'] = false)
    (hfind : findSub line ['\"'] = some i) : line.take i ≠ [] := by
  have hne := line_ne_nil_of_ends_quote hends
  have hipos : 0 < i := by
    by_contra hz
    have hi0 : i = 0 := by omega
    subst hi0
    rw [findSub_zero hfind] at hstarts
    cases hstarts
  intro htake
  rcases List.take_eq_nil_iff.mp htake with h0 | hnil
  · omega
  · exact hne hnil

/-- C5. Dialogue formatting: a line that ends with a double quote, does
not start with one, and whose prefix before the first quote is the id of
a registry record is emitted as the single combined line made of the
reset marker `{{0}}`, the record's color marker, its display name and
`": "`, the default-color marker `{{d}}`, the record's speed marker, and
the quoted text with its speed markers rescaled by the record's
multiplier; when no record's id matches, the raw line passes through
unchanged. -/
theorem C5_dialogue_formatting :
    (∀ (line : Str) (chars : List Character) (i : Nat) (ch : Character),
      pyEndsWith line ['\"'] = true →
      pyStartsWith line ['\"'] = false →
      findSub line ['\"'] = some i →
      fstLookup chars (line.take i) = some ch →
      format_story_text (some [line]) (some chars) =
        [strLit "\x7b\x7b0\x7d\x7d\x7b\x7b" ++ ch.color ++ strLit "\x7d\x7d" ++ ch.cname ++
          strLit ": \x7b\x7bd\x7d\x7d" ++ strLit "\x7b\x7b" ++ pyFloatStr ch.speed ++
          strLit "\x7d\x7d" ++ rsmText (dropLastN (line.drop (i + 1)) 1) ch.speed]) ∧
    (∀ (line : Str) (chars : List Character) (i : Nat),
      pyEndsWith line ['\"'] = true →
      pyStartsWith line ['\"'] = false →
      findSub line ['\"'] = some i →
      fstLookup chars (line.take i) = none →
      format_story_text (some [line]) (some chars) = [line]) := by
  constructor
  · intro line chars i ch hends hstarts hfind hlook
    have hne := line_ne_nil_of_ends_quote hends
    have hcur := take_ne_nil_of_not_quote_start hends hstarts hfind
    have hstep : fstStep chars ([], []) line =
        ([sepLine, fstRender ch (dropLastN (line.drop (i + 1)) 1)], line.take i) := by
      unfold fstStep
      rw [if_neg hne, if_pos hends, if_neg (by simp [hstarts]), hfind]
      simp only []
      rw [hlook]
      unfold fstEmit
      rw [if_pos (by simpa using hcur)]
      simp
    have hfmt : format_story_text (some [line]) (some chars) =
        ((fstStep chars ([], []) line).1).dropWhile (fun l => l = sepLine) := rfl
    rw [hfmt, hstep]
    rw [List.dropWhile_cons_of_pos (by simp), List.dropWhile_cons_of_neg
      (by simpa using fstRender_ne_sepLine ch _)]
    rfl
  · intro line chars i hends hstarts hfind hlook
    have hne := line_ne_nil_of_ends_quote hends
    have hlsep : line ≠ sepLine := by
      intro heq
      rw [heq] at hends
      simp [pyEndsWith, sepLine, strLit] at hends
    have hstep : fstStep chars ([], []) line = ([line], []) := by
      unfold fstStep
      rw [if_neg hne, if_pos hends, if_neg (by simp [hstarts]), hfind]
      simp only []
      rw [hlook]
      rfl
    have hfmt : format_story_text (some [line]) (some chars) =
        ((fstStep chars ([], []) line).1).dropWhile (fun l => l = sepLine) := rfl
    rw [hfmt, hstep]
    rw [List.dropWhile_cons_of_neg (by simpa using hlsep)]

/-- C5 witness: a concrete dialogue line against a registry, and the
no-match passthrough, both obtained from the theorem. -/
theorem C5_dialogue_formatting_witness :
    format_story_text (some [strLit "jn\"Hi \x7b\x7b2\x7d\x7d there\""])
        (some [⟨strLit "jn", strLit "John", strLit "b", ⟨2, 1⟩⟩]) =
      [strLit "\x7b\x7b0\x7d\x7d\x7b\x7bb\x7d\x7dJohn: \x7b\x7bd\x7d\x7d\x7b\x7b2.0\x7d\x7dHi \x7b\x7b4.0\x7d\x7d there"] ∧
    format_story_text (some [strLit "nn\"Hi\""])
        (some [⟨strLit "jn", strLit "John", strLit "b", ⟨2, 1⟩⟩]) =
      [strLit "nn\"Hi\""] := by
  constructor
  · rw [C5_dialogue_formatting.1 (strLit "jn\"Hi \x7b\x7b2\x7d\x7d there\"")
      [⟨strLit "jn", strLit "John", strLit "b", ⟨2, 1⟩⟩] 2
      ⟨strLit "jn", strLit "John", strLit "b", ⟨2, 1⟩⟩
      (by decide) (by decide) (by decide) (by decide)]
    decide
  · exact C5_dialogue_formatting.2 (strLit "nn\"Hi\"")
      [⟨strLit "jn", strLit "John", strLit "b", ⟨2, 1⟩⟩] 2
      (by decide) (by decide) (by decide) (by decide)

/-! ### Speaker-change separators: C6 -/

theorem fstEmit_eq (st : List Str × Str) (cur next : Str) :
    fstEmit st cur next = (st.1 ++ (if cur ≠ st.2 then [sepLine] else []) ++ [next], cur) := by
  unfold fstEmit
  by_cases h : cur ≠ st.2
  · rw [if_pos h, if_pos h, List.append_assoc]
  · rw [if_neg h, if_neg h]
    simp

/-- C6 counterexample: with `a` in the registry and `b` not, the lines
`a"x"` and `b"y"` have different speakers, so the claim requires a
standalone `{{0}}` separator before the second emitted line; the source
reaches the unmatched-id `continue`, appends the raw line with no
separator (and without updating the active speaker), so the output has
no separator line at all. -/
theorem C6_counterexample :
    format_story_text (some [strLit "a\"x\"", strLit "b\"y\""])
        (some [⟨strLit "a", strLit "A", strLit "r", ⟨1, 1⟩⟩]) =
      [strLit "\x7b\x7b0\x7d\x7d\x7b\x7br\x7d\x7dA: \x7b\x7bd\x7d\x7d\x7b\x7b1.0\x7d\x7dx",
        strLit "b\"y\""] ∧
    sepLine ∉ format_story_text (some [strLit "a\"x\"", strLit "b\"y\""])
        (some [⟨strLit "a", strLit "A", strLit "r", ⟨1, 1⟩⟩]) := by
  decide

/-- C6 amended: a `{{0}}` separator line is emitted immediately before a
line exactly when that line goes through the speaker-tracking path —
matched dialogue (id = prefix before the first quote), quoted narration
and plain narration (both with the empty id) — and its id differs from
the previously tracked id; an unmatched dialogue line and an empty line
bypass both the separator logic and the speaker update; and leading
separator lines are trimmed, so the returned list never begins with
`{{0}}`. -/
theorem C6_separator_amended :
    (∀ (chars : List Character) (st : List Str × Str) (line : Str) (i : Nat) (ch : Character),
      pyEndsWith line ['\"'] = true → pyStartsWith line ['\"'] = false →
      findSub line ['\"'] = some i → fstLookup chars (line.take i) = some ch →
      fstStep chars st line =
        (st.1 ++ (if line.take i ≠ st.2 then [sepLine] else []) ++
          [fstRender ch (dropLastN (line.drop (i + 1)) 1)], line.take i)) ∧
    (∀ (chars : List Character) (st : List Str × Str) (line : Str) (i : Nat),
      pyEndsWith line ['\"'] = true → pyStartsWith line ['\"'] = false →
      findSub line ['\"'] = some i → fstLookup chars (line.take i) = none →
      fstStep chars st line = (st.1 ++ [line], st.2)) ∧
    (∀ (chars : List Character) (st : List Str × Str) (line : Str),
      line ≠ [] → pyEndsWith line ['\"'] = true → pyStartsWith line ['\"'] = true →
      fstStep chars st line =
        (st.1 ++ (if ([] : Str) ≠ st.2 then [sepLine] else []) ++
          [dropLastN (line.drop 1) 1], [])) ∧
    (∀ (chars : List Character) (st : List Str × Str) (line : Str),
      line ≠ [] → pyEndsWith line ['\"'] = false →
      fstStep chars st line =
        (st.1 ++ (if ([] : Str) ≠ st.2 then [sepLine] else []) ++ [line], [])) ∧
    (∀ (chars : List Character) (st : List Str × Str), fstStep chars st [] = st) ∧
    (∀ (lines : List Str) (chars : List Character) (h : Str),
      (format_story_text (some lines) (some chars)).head? = some h → h ≠ sepLine) := by
  refine ⟨?_, ?_, ?_, ?_, ?_, ?_⟩
  · intro chars st line i ch hends hstarts hfind hlook
    have hne := line_ne_nil_of_ends_quote hends
    unfold fstStep
    rw [if_neg hne, if_pos hends, if_neg (by simp [hstarts]), hfind]
    simp only []
    rw [hlook]
    simp only []
    rw [fstEmit_eq]
  · intro chars st line i hends hstarts hfind hlook
    have hne := line_ne_nil_of_ends_quote hends
    unfold fstStep
    rw [if_neg hne, if_pos hends, if_neg (by simp [hstarts]), hfind]
    simp only []
    rw [hlook]
  · intro chars st line hne hends hstarts
    unfold fstStep
    rw [if_neg hne, if_pos hends, if_pos hstarts, fstEmit_eq]
  · intro chars st line hne hends
    unfold fstStep
    rw [if_neg hne, if_neg (by simp [hends]), fstEmit_eq]
  · intro chars st
    unfold fstStep
    rw [if_pos rfl]
  · intro lines chars h hh
    have hfmt : format_story_text (some lines) (some chars) =
        ((lines.foldl (fstStep chars) ([], [])).1).dropWhile (fun l => l = sepLine) := rfl
    rw [hfmt] at hh
    have := dropWhile_head_ne _ _ hh
    simpa using this

/-- C6 witness: the step equations applied at concrete inputs — a
speaker change inserts the separator, and an unmatched dialogue line is
appended raw with no separator and no speaker update. -/
theorem C6_separator_amended_witness :
    fstStep [⟨strLit "a", strLit "A", strLit "r", ⟨1, 1⟩⟩]
        ([strLit "w"], strLit "a") (strLit "b\"y\"") =
      ([strLit "w", strLit "b\"y\""], strLit "a") ∧
    fstStep [⟨strLit "a", strLit "A", strLit "r", ⟨1, 1⟩⟩]
        ([strLit "w"], strLit "z") (strLit "a\"x\"") =
      ([strLit "w", sepLine,
        strLit "\x7b\x7b0\x7d\x7d\x7b\x7br\x7d\x7dA: \x7b\x7bd\x7d\x7d\x7b\x7b1.0\x7d\x7dx"],
        strLit "a") := by
  constructor
  · rw [C6_separator_amended.2.1 [⟨strLit "a", strLit "A", strLit "r", ⟨1, 1⟩⟩]
      ([strLit "w"], strLit "a") (strLit "b\"y\"") 1
      (by decide) (by decide) (by decide) (by decide)]
    rfl
  · rw [C6_separator_amended.1 [⟨strLit "a", strLit "A", strLit "r", ⟨1, 1⟩⟩]
      ([strLit "w"], strLit "z") (strLit "a\"x\"") 1
      ⟨strLit "a", strLit "A", strLit "r", ⟨1, 1⟩⟩
      (by decide) (by decide) (by decide) (by decide)]
    decide

/-! ### Registry uniqueness: C9 -/

/-- C9 counterexample: `get_characters` performs no deduplication — two
well-formed lines with the same id produce two records sharing that id,
so the registry is not unique-by-id. -/
theorem C9_counterexample :
    get_characters (some [strLit "a|A|r|1", strLit "a|B|g|2"]) =
      [⟨strLit "a", strLit "A", strLit "r", ⟨1, 1⟩⟩,
       ⟨strLit "a", strLit "B", strLit "g", ⟨2, 1⟩⟩] ∧
    (get_characters (some [strLit "a|A|r|1", strLit "a|B|g|2"])).map Character.var =
      [strLit "a", strLit "a"] := by
  decide

/-- C9 amended: the registry produced by `get_characters` may contain
several records with the same id, but the lookup used by
`format_story_text` resolves a speaker id to the first matching record,
so a dialogue line is still decorated by at most one record — the
earliest one. -/
theorem C9_first_match_resolution :
    ∀ (cs₁ : List Character) (c : Character) (cs₂ : List Character) (cur : Str),
      (∀ c' ∈ cs₁, c'.var ≠ cur) → c.var = cur →
      fstLookup (cs₁ ++ c :: cs₂) cur = some c := by
  intro cs₁
  induction cs₁ with
  | nil =>
    intro c cs₂ cur _ hc
    unfold fstLookup
    rw [List.nil_append, List.find?_cons_of_pos _ (by simpa using hc)]
  | cons c' rest ih =>
    intro c cs₂ cur hne hc
    unfold fstLookup
    rw [List.cons_append, List.find?_cons_of_neg _
      (by simpa using hne c' (List.mem_cons_self c' rest))]
    exact ih c cs₂ cur (fun x hx => hne x (List.mem_cons_of_mem c' hx)) hc

/-- C9 witness: on the duplicate registry of the counterexample, the
lookup picks the first record. -/
theorem C9_first_match_resolution_witness :
    fstLookup [⟨strLit "a", strLit "A", strLit "r", ⟨1, 1⟩⟩,
        ⟨strLit "a", strLit "B", strLit "g", ⟨2, 1⟩⟩] (strLit "a") =
      some ⟨strLit "a", strLit "A", strLit "r", ⟨1, 1⟩⟩ :=
  C9_first_match_resolution [] ⟨strLit "a", strLit "A", strLit "r", ⟨1, 1⟩⟩
    [⟨strLit "a", strLit "B", strLit "g", ⟨2, 1⟩⟩] (strLit "a")
    (by intro c' hc'; cases hc') (by decide)

/-! ### Graceful degradation: C8 -/

theorem rsmChunkE_float (f : PFloat) (c : Str) :
    rsmChunkE (.vfloat f) c = .ok (rsmChunk f c) := by
  unfold rsmChunkE rsmChunk
  by_cases hs : pyStartsWith c mOpen = true
  · rw [if_pos hs, if_pos hs]
    rcases hv : pyFloat (dropLastN (c.drop 2) 2) with _ | v
    · rfl
    · rfl
  · rw [if_neg hs, if_neg hs]

theorem rsmGoE_float (f : PFloat) : ∀ (chunks : List Str) (acc : Str),
    rsmGoE (.vfloat f) chunks acc =
      .ok (chunks.foldl (fun r c => r ++ rsmChunk f c) acc) := by
  intro chunks
  induction chunks with
  | nil => intro acc; rfl
  | cons c rest ih =>
    intro acc
    unfold rsmGoE
    rw [rsmChunkE_float]
    simp only []
    rw [ih, List.foldl_cons]

theorem rsmTextE_float (s : Str) (f : PFloat) :
    rsmTextE s (.vfloat f) = .ok (rsmText s f) := by
  unfold rsmTextE rsmText
  by_cases h : pyIsOne f = true
  · rw [if_pos (by simpa using h), if_pos h]
  · rw [if_neg (by simpa using h), if_neg h]
    exact rsmGoE_float f _ []

theorem fstLookupE_encode : ∀ (cs : List Character) (cur : Str),
    fstLookupE (cs.map encodeChar) cur = .ok ((fstLookup cs cur).map encodeChar) := by
  intro cs
  induction cs with
  | nil => intro cur; rfl
  | cons ch rest ih =>
    intro cur
    simp only [List.map_cons]
    unfold fstLookupE
    show (if pyEqStr (.vstr ch.var) cur then Except.ok (some (encodeChar ch))
      else fstLookupE (rest.map encodeChar) cur) = _
    by_cases hc : ch.var = cur
    · rw [if_pos (by simpa [pyEqStr] using hc)]
      unfold fstLookup
      rw [List.find?_cons_of_pos _ (by simpa using hc)]
      rfl
    · rw [if_neg (by simpa [pyEqStr] using hc), ih]
      unfold fstLookup
      rw [List.find?_cons_of_neg _ (by simpa using hc)]

theorem fstRenderE_encode (ch : Character) (text : Str) :
    fstRenderE (encodeChar ch) text = .ok (fstRender ch text) := by
  unfold fstRenderE
  show (match rsmTextE text (PyVal.vfloat ch.speed) with
    | Except.error e => (Except.error e : Except PyErr Str)
    | Except.ok t => Except.ok
        (strLit "\x7b\x7b0\x7d\x7d\x7b\x7b" ++ ch.color ++ strLit "\x7d\x7d" ++
          ch.cname ++ strLit ": \x7b\x7bd\x7d\x7d" ++ strLit "\x7b\x7b" ++
          pyValStr (PyVal.vfloat ch.speed) ++ strLit "\x7d\x7d" ++ t)) = _
  rw [rsmTextE_float]
  rfl

theorem fstStepE_encode (cs : List Character) (st : List Str × Str) (line : Str) :
    fstStepE (cs.map encodeChar) st line = .ok (fstStep cs st line) := by
  unfold fstStepE fstStep
  by_cases hnil : line = []
  · rw [if_pos hnil, if_pos hnil]
  · rw [if_neg hnil, if_neg hnil]
    by_cases hends : pyEndsWith line ['\"'] = true
    · rw [if_pos hends, if_pos hends]
      by_cases hstarts : pyStartsWith line ['\"'] = true
      · rw [if_pos hstarts, if_pos hstarts]
      · rw [if_neg hstarts, if_neg hstarts]
        rcases hfind : findSub line ['\"'] with _ | i
        · simp only []
          rw [fstLookupE_encode]
          rcases hlook : fstLookup cs (dropLastN line 1) with _ | ch
          · simp only [Option.map_none']
          · simp only [Option.map_some']
            rw [fstRenderE_encode]
        · simp only []
          rw [fstLookupE_encode]
          rcases hlook : fstLookup cs (line.take i) with _ | ch
          · simp only [Option.map_none']
          · simp only [Option.map_some']
            rw [fstRenderE_encode]
    · rw [if_neg hends, if_neg hends]

theorem fstGoE_encode (cs : List Character) : ∀ (lines : List Str) (st : List Str × Str),
    fstGoE (cs.map encodeChar) lines st = .ok (lines.foldl (fstStep cs) st) := by
  intro lines
  induction lines with
  | nil => intro st; rfl
  | cons l rest ih =>
    intro st
    unfold fstGoE
    rw [fstStepE_encode]
    simp only []
    rw [ih, List.foldl_cons]

/-- C8 counterexample: `format_story_text` indexes into whatever records
it is handed with no guard: on the malformed one-field record `["a"]`
and the dialogue line `a"x"`, the id matches and `character[3]` raises
an IndexError that nothing catches, so the call does not return its
specified neutral result. -/
theorem C8_counterexample :
    format_story_text_py (some [strLit "a\"x\""]) (some [[PyVal.vstr (strLit "a")]]) =
      Except.error PyErr.indexError := rfl

/-- C8 amended: the empty-entry removal loop of `split_markers` never
raises (its exact index-based model always returns the filtered blocks),
and `format_story_text` raises no exception whenever every record has
the four typed fields produced by `get_characters` — on such registries
the exception-aware model returns exactly the total model's output.  The
remaining core operations catch their only failing operations
(`float(...)` rescue in the rescaler and the character parser; the
Index/TypeErrors in the decision menu), which the total models encode.
The claim's allowance of arbitrary malformed records is what fails, per
the counterexample. -/
theorem C8_graceful_amended :
    (∀ s : Option Str, split_markers_py s = some (split_markers s)) ∧
    (∀ (lines : Option (List Str)) (chars : Option (List Character)),
      format_story_text_py lines (chars.map (fun cs => cs.map encodeChar)) =
        .ok (format_story_text lines chars)) := by
  constructor
  · exact split_markers_py_agrees
  · intro lines chars
    match lines, chars with
    | none, none => rfl
    | none, some _ => rfl
    | some _, none => rfl
    | some ls, some cs =>
      show (match fstGoE (cs.map encodeChar) ls ([], []) with
        | Except.error e => (Except.error e : Except PyErr (List Str))
        | Except.ok st => Except.ok (st.1.dropWhile (fun l => l = sepLine))) = _
      rw [fstGoE_encode]
      rfl

/-! ### The wrapper invariant: C2.  First, facts about `findSub`,
`pyStartsWith` and the counting scan `cntA`. -/

theorem startsWith_length {x pat : Str} (h : pyStartsWith x pat = true) :
    pat.length ≤ x.length := by
  have hx := of_decide_eq_true h
  have := congrArg List.length hx
  simp only [List.length_take] at this
  omega

theorem startsWith_append_left {a pat : Str} (b : Str)
    (h : pyStartsWith a pat = true) : pyStartsWith (a ++ b) pat = true := by
  have hlen := startsWith_length h
  have hx := of_decide_eq_true h
  apply decide_eq_true
  rw [List.take_append_eq_append_take, hx]
  have : pat.length - a.length = 0 := by omega
  rw [this]
  simp

theorem startsWith_self (pat : Str) : pyStartsWith pat pat = true := by
  apply decide_eq_true
  simp

theorem startsWith_take_eq {x pat : Str} {n : Nat} (h : pat.length ≤ n) :
    pyStartsWith (x.take n) pat = pyStartsWith x pat := by
  unfold pyStartsWith
  rw [List.take_take, Nat.min_eq_left h]

theorem startsWith_nil {pat : Str} (h : pat ≠ []) : pyStartsWith [] pat = false := by
  unfold pyStartsWith
  simp only [List.take_nil]
  exact decide_eq_false (fun heq => h heq.symm)

theorem findSub_spec_start : ∀ {l pat : Str} {i : Nat},
    findSub l pat = some i → pyStartsWith (l.drop i) pat = true := by
  intro l
  induction l with
  | nil =>
    intro pat i h
    simp only [findSub] at h
    split at h
    · rename_i hp
      cases h
      subst hp
      rfl
    · cases h
  | cons c t ih =>
    intro pat i h
    simp only [findSub] at h
    split at h
    · rename_i hs
      cases h
      simpa using hs
    · rcases Option.map_eq_some'.mp h with ⟨j, hj, rfl⟩
      simpa using ih hj

theorem findSub_spec_min : ∀ {l pat : Str} {i : Nat},
    findSub l pat = some i → ∀ j, j < i → pyStartsWith (l.drop j) pat = false := by
  intro l
  induction l with
  | nil =>
    intro pat i h j hj
    simp only [findSub] at h
    split at h
    · cases h
      omega
    · cases h
  | cons c t ih =>
    intro pat i h j hj
    simp only [findSub] at h
    split at h
    · cases h
      omega
    · rcases Option.map_eq_some'.mp h with ⟨k, hk, rfl⟩
      match j with
      | 0 =>
        rename_i hs
        simpa using Bool.of_not_eq_true hs
      | j' + 1 =>
        have := ih hk j' (by omega)
        simpa using this

theorem findSub_none_spec : ∀ {l pat : Str}, pat ≠ [] →
    findSub l pat = none → ∀ j, pyStartsWith (l.drop j) pat = false := by
  intro l
  induction l with
  | nil =>
    intro pat hpat _ j
    rw [List.drop_nil]
    exact startsWith_nil hpat
  | cons c t ih =>
    intro pat hpat h j
    simp only [findSub] at h
    split at h
    · cases h
    · rename_i hs
      match j with
      | 0 => simpa using Bool.of_not_eq_true hs
      | j' + 1 =>
        have hnone : findSub t pat = none := by
          rcases hft : findSub t pat with _ | k
          · rfl
          · rw [hft] at h
            cases h
        simpa using ih hpat hnone j'

theorem cnt_nil (st : Nat) : cntA st [] = if st = 1 then 1 else 0 := by
  match st with
  | 0 => rfl
  | 1 => rfl
  | 2 => rfl
  | 3 => rfl
  | n + 4 => rfl

theorem cnt_mono : ∀ (x : Str),
    cntA 2 x ≤ cntA 0 x ∧ cntA 3 x ≤ cntA 0 x ∧
      cntA 2 x ≤ cntA 1 x ∧ cntA 3 x ≤ cntA 1 x := by
  intro x
  induction x with
  | nil => simp [cnt_nil]
  | cons c r ih =>
    obtain ⟨h20, h30, h21, h31⟩ := ih
    by_cases hob : c = '{'
    · subst hob
      simp [cntA]
      omega
    · by_cases hcb : c = '}'
      · subst hcb
        simp [cntA]
        omega
      · simp [cntA, hob, hcb]
        omega

theorem cnt1_le (t : Str) : cntA 1 t ≤ 1 + cntA 0 t := by
  cases t with
  | nil => simp [cnt_nil]
  | cons c r =>
    by_cases hc : c = '{'
    · subst hc
      simp [cntA]
      have := (cnt_mono r).2.2.1
      omega
    · simp [cntA, hc]
      omega

theorem cnt_split : ∀ (w t : Str) (st : Nat), st ≤ 3 →
    cntA st (w ++ t) ≤ (if st = 1 then 1 else 0) + w.length + cntA 0 t := by
  intro w
  induction w with
  | nil =>
    intro t st hst
    rcases st with _ | _ | _ | _ | st4
    · simp
    · simpa using cnt1_le t
    · simpa using Nat.le_trans (cnt_mono t).1 (by omega)
    · simpa using Nat.le_trans (cnt_mono t).2.1 (by omega)
    · omega
  | cons c w' ih =>
    intro t st hst
    have hA := ih t 0 (by omega)
    have hB := ih t 1 (by omega)
    have hC := ih t 2 (by omega)
    have hD := ih t 3 (by omega)
    norm_num at hA hB hC hD
    rcases st with _ | _ | _ | _ | st4
    · by_cases hc : c = '{'
      · subst hc
        simp [cntA]
        omega
      · simp [cntA, hc]
        omega
    · by_cases hc : c = '{'
      · subst hc
        simp [cntA]
        omega
      · simp [cntA, hc]
        omega
    · by_cases hc : c = '}'
      · subst hc
        simp [cntA]
        omega
      · simp [cntA, hc]
        omega
    · by_cases hc : c = '}'
      · subst hc
        simp [cntA]
        omega
      · simp [cntA, hc]
        omega
    · omega

theorem jjOnlyTerminal_drop (k : Nat) {x : Str} (h : jjOnlyTerminal x) :
    jjOnlyTerminal (x.drop k) := by
  intro j hj
  rw [List.drop_drop] at hj
  have h2 := h (k + j) hj
  simp only [List.length_drop]
  omega

theorem markerShaped_cons {m : Str} (h : pyStartsWith m mOpen = true) :
    ∃ m'', m = '{' :: '{' :: m'' := by
  have hx := of_decide_eq_true h
  match m with
  | [] => simp [mOpen] at hx
  | [c] => simp [mOpen] at hx
  | c :: d :: r =>
    simp [mOpen] at hx
    obtain ⟨h1, h2⟩ := hx
    subst h1
    subst h2
    exact ⟨r, rfl⟩

theorem cnt_scan_le : ∀ (n : Nat) (x : Str), x.length ≤ n → jjOnlyTerminal x →
    ∀ t, cntA 2 (x ++ t) ≤ cntA 0 t := by
  intro n
  induction n with
  | zero =>
    intro x hx _ t
    have : x = [] := List.length_eq_zero.mp (by omega)
    subst this
    simpa using (cnt_mono t).1
  | succ n ih =>
    intro x hx hjj t
    match x with
    | [] => simpa using (cnt_mono t).1
    | c :: x' =>
      by_cases hc : c = '}'
      · subst hc
        have hred : cntA 2 (('}' :: x') ++ t) = cntA 3 (x' ++ t) := by simp [cntA]
        rw [hred]
        match x' with
        | [] => simpa using (cnt_mono t).2.1
        | d :: x'' =>
          by_cases hd : d = '}'
          · subst hd
            have h0 : pyStartsWith (('}' :: '}' :: x'').drop 0) mClose = true := by
              apply decide_eq_true
              rfl
            have hlen := hjj 0 h0
            simp only [List.length_cons] at hlen
            have hnil : x'' = [] := List.length_eq_zero.mp (by omega)
            subst hnil
            simp [cntA]
          · have hred2 : cntA 3 ((d :: x'') ++ t) = cntA 2 (x'' ++ t) := by
              simp [cntA, hd]
            rw [hred2]
            have hlx : x''.length ≤ n := by
              simp only [List.length_cons] at hx
              omega
            apply ih x'' hlx
            have := jjOnlyTerminal_drop 2 hjj
            simpa using this
      · have hred : cntA 2 ((c :: x') ++ t) = cntA 2 (x' ++ t) := by simp [cntA, hc]
        rw [hred]
        have hlx : x'.length ≤ n := by
          simp only [List.length_cons] at hx
          omega
        apply ih x' hlx
        have := jjOnlyTerminal_drop 1 hjj
        simpa using this

theorem cnt_markerSkip {m : Str} (hm : markerShaped m) :
    ∀ (st : Nat), st ≤ 3 → ∀ rest,
      cntA st (m ++ rest) ≤ (if st = 1 then 1 else 0) + cntA 0 rest := by
  obtain ⟨hopen, hjj⟩ := hm
  obtain ⟨m'', rfl⟩ := markerShaped_cons hopen
  have hjj'' : jjOnlyTerminal m'' := by
    have := jjOnlyTerminal_drop 2 hjj
    simpa using this
  have hscan := cnt_scan_le m''.length m'' (Nat.le_refl _) hjj''
  intro st hst rest
  rcases st with _ | _ | _ | _ | st4
  · have : cntA 0 (('{' :: '{' :: m'') ++ rest) = cntA 2 (m'' ++ rest) := by simp [cntA]
    rw [this]
    simpa using hscan rest
  · have : cntA 1 (('{' :: '{' :: m'') ++ rest) = cntA 2 (m'' ++ rest) := by simp [cntA]
    rw [this]
    have := hscan rest
    norm_num
    omega
  · have : cntA 2 (('{' :: '{' :: m'') ++ rest) = cntA 2 (m'' ++ rest) := by simp [cntA]
    rw [this]
    simpa using hscan rest
  · have : cntA 3 (('{' :: '{' :: m'') ++ rest) = cntA 2 (m'' ++ rest) := by simp [cntA]
    rw [this]
    simpa using hscan rest
  · omega

theorem cnt_pieces : ∀ (ps : List (Bool × Str)),
    (∀ p ∈ ps, p.1 = true → markerShaped p.2) →
    ∀ (st : Nat), st ≤ 3 →
      cntA st (piecesStr ps) ≤ (if st = 1 then 1 else 0) + piecesWeight ps := by
  intro ps
  induction ps with
  | nil =>
    intro _ st hst
    simp [piecesStr, piecesWeight, cnt_nil]
  | cons p ps' ih =>
    intro hshapes st hst
    obtain ⟨b, w⟩ := p
    have hstr : piecesStr ((b, w) :: ps') = w ++ piecesStr ps' := by
      simp [piecesStr]
    rw [hstr]
    match b with
    | true =>
      have hshape : markerShaped w :=
        hshapes (true, w) (List.mem_cons_self _ _) rfl
      have h1 := cnt_markerSkip hshape st hst (piecesStr ps')
      have h2 := ih (fun p hp => hshapes p (List.mem_cons_of_mem _ hp)) 0 (by omega)
      have hweq : piecesWeight ((true, w) :: ps') = piecesWeight ps' := by
        simp [piecesWeight, List.filter_cons]
      rw [hweq]
      simp at h2
      omega
    | false =>
      have h1 := cnt_split w (piecesStr ps') st hst
      have h2 := ih (fun p hp => hshapes p (List.mem_cons_of_mem _ hp)) 0 (by omega)
      have hweq : piecesWeight ((false, w) :: ps') = w.length + piecesWeight ps' := by
        simp [piecesWeight, List.filter_cons]
      rw [hweq]
      simp at h2
      omega

theorem startsWith_pair {m : Str} {a b : Char} (h : pyStartsWith m [a, b] = true) :
    ∃ r, m = a :: b :: r := by
  have hx := of_decide_eq_true h
  match m with
  | [] => simp at hx
  | [c] => simp at hx
  | c :: d :: r =>
    simp at hx
    obtain ⟨h1, h2⟩ := hx
    subst h1
    subst h2
    exact ⟨r, rfl⟩

theorem take1_of_not_pair {c : Char} {r : Str} {a : Char}
    (h : pyStartsWith (c :: r) [c, a] = false) : r.take 1 ≠ [a] := by
  intro heq
  have : pyStartsWith (c :: r) [c, a] = true := by
    apply decide_eq_true
    simp [heq]
  rw [this] at h
  cases h

theorem cnt0_cons {c : Char} {r : Str} (h : pyStartsWith (c :: r) mOpen = false) :
    cntA 0 (c :: r) = 1 + cntA 0 r := by
  by_cases hc : c = '{'
  · subst hc
    have hr : r.take 1 ≠ ['{'] := take1_of_not_pair (by simpa [mOpen] using h)
    have h1 : cntA 0 ('{' :: r) = cntA 1 r := by simp [cntA]
    rw [h1]
    match r with
    | [] => simp [cnt_nil]
    | d :: r' =>
      by_cases hd : d = '{'
      · subst hd
        simp at hr
      · simp [cntA, hd]
        omega
  · simp [cntA, hc]

theorem cnt0_prefix : ∀ (pre rest : Str),
    (∀ j, j < pre.length → pyStartsWith ((pre ++ rest).drop j) mOpen = false) →
    cntA 0 (pre ++ rest) = pre.length + cntA 0 rest := by
  intro pre
  induction pre with
  | nil => intro rest _; simp
  | cons c pre' ih =>
    intro rest h
    have h0 : pyStartsWith (c :: (pre' ++ rest)) mOpen = false := by
      simpa using h 0 (by simp)
    rw [List.cons_append, cnt0_cons h0]
    rw [ih rest (fun j hj => by simpa using h (j + 1) (by simpa using hj))]
    simp only [List.length_cons]
    omega

theorem cnt_scan_none : ∀ (x : Str),
    (∀ j, pyStartsWith (x.drop j) mClose = false) →
    cntA 2 x = 0 ∧ (pyStartsWith x ['}'] = false → cntA 3 x = 0) := by
  intro x
  induction x with
  | nil => intro _; simp [cnt_nil]
  | cons c x' ih =>
    intro h
    have ih' := ih (fun j => by simpa using h (j + 1))
    constructor
    · by_cases hc : c = '}'
      · subst hc
        have h0 : x'.take 1 ≠ ['}'] := take1_of_not_pair (by simpa [mClose] using h 0)
        have hred : cntA 2 ('}' :: x') = cntA 3 x' := by simp [cntA]
        rw [hred]
        apply ih'.2
        apply decide_eq_false
        simpa using h0
      · have hred : cntA 2 (c :: x') = cntA 2 x' := by simp [cntA, hc]
        rw [hred]
        exact ih'.1
    · intro hcq
      have hc : c ≠ '}' := by
        intro heq
        subst heq
        have : pyStartsWith ('}' :: x') ['}'] = true := by
          apply decide_eq_true
          simp
        rw [this] at hcq
        cases hcq
      have hred : cntA 3 (c :: x') = cntA 2 x' := by simp [cntA, hc]
      rw [hred]
      exact ih'.1

theorem cnt_scan_eq : ∀ (n : Nat) (x : Str), x.length ≤ n →
    ∀ e, pyStartsWith (x.drop e) mClose = true →
    (∀ j, j < e → pyStartsWith (x.drop j) mClose = false) →
    cntA 2 x = cntA 0 (x.drop (e + 2)) := by
  intro n
  induction n with
  | zero =>
    intro x hx e he _
    have hnil : x = [] := List.length_eq_zero.mp (by omega)
    subst hnil
    rw [List.drop_nil, startsWith_nil (by simp [mClose])] at he
    cases he
  | succ n ih =>
    intro x hx e he hmin
    match x, hx with
    | [], _ =>
      rw [List.drop_nil, startsWith_nil (by simp [mClose])] at he
      cases he
    | c :: x', hx =>
      by_cases hc : c = '}'
      · subst hc
        by_cases he0 : e = 0
        · subst he0
          obtain ⟨x'', hx''⟩ := startsWith_pair (by simpa [mClose] using he)
          have hx'eq : x' = '}' :: x'' := by
            injection hx'' with _ h2
          subst hx'eq
          simp [cntA]
        · have h0 := hmin 0 (by omega)
          have h1 : x'.take 1 ≠ ['}'] := take1_of_not_pair (by simpa [mClose] using h0)
          match x', hx with
          | [], _ =>
            have hd : (['}'] : Str).drop e = [] :=
              List.drop_eq_nil_of_le (by simp; omega)
            rw [hd, startsWith_nil (by simp [mClose])] at he
            cases he
          | d :: x'', hx =>
            have hd : d ≠ '}' := by
              intro hdq
              subst hdq
              simp at h1
            have he1 : e ≠ 1 := by
              intro he1
              subst he1
              obtain ⟨r, hr⟩ := startsWith_pair (by simpa [mClose] using he)
              injection hr with hrr _
              exact hd hrr
            obtain ⟨e'', rfl⟩ : ∃ e'', e = e'' + 2 := ⟨e - 2, by omega⟩
            have hred : cntA 2 ('}' :: d :: x'') = cntA 2 x'' := by
              simp [cntA, hd]
            rw [hred]
            have hlen : x''.length ≤ n := by
              simp only [List.length_cons] at hx
              omega
            have hres := ih x'' hlen e''
              (by simpa using he)
              (fun j hj => by simpa using hmin (j + 2) (by omega))
            rw [hres]
            rfl
      · have he0 : e ≠ 0 := by
          intro he0
          subst he0
          obtain ⟨r, hr⟩ := startsWith_pair (by simpa [mClose] using he)
          injection hr with hrr _
          exact hc hrr
        obtain ⟨e', rfl⟩ : ∃ e', e = e' + 1 := ⟨e - 1, by omega⟩
        have hred : cntA 2 (c :: x') = cntA 2 x' := by simp [cntA, hc]
        rw [hred]
        have hlen : x'.length ≤ n := by
          simp only [List.length_cons] at hx
          omega
        have hres := ih x' hlen e'
          (by simpa using he)
          (fun j hj => by simpa using hmin (j + 1) (by omega))
        rw [hres]
        rfl

theorem stop_ge_two {l : Str} (hro : pyStartsWith l mOpen = true) : 2 ≤ smStop l := by
  obtain ⟨r'', rfl⟩ := startsWith_pair (by simpa [mOpen] using hro)
  unfold smStop
  rcases hfc : findSub ('{' :: '{' :: r'') mClose with _ | e
  · simp
  · simp only []
    omega

theorem cnt_drop_stop {l : Str} (hro : pyStartsWith l mOpen = true) :
    cntA 0 l = cntA 0 (l.drop (smStop l)) := by
  obtain ⟨r'', rfl⟩ := startsWith_pair (by simpa [mOpen] using hro)
  have hl0 : cntA 0 ('{' :: '{' :: r'') = cntA 2 r'' := by simp [cntA]
  unfold smStop
  rcases hfc : findSub ('{' :: '{' :: r'') mClose with _ | e
  · simp only []
    rw [List.drop_length, hl0]
    have hnone := findSub_none_spec (l := '{' :: '{' :: r'') (by simp [mClose]) hfc
    have hz := (cnt_scan_none r'' (fun j => by simpa using hnone (j + 2))).1
    rw [hz]
    rfl
  · simp only []
    have hjj := findSub_spec_start hfc
    have hmin := findSub_spec_min hfc
    have he2 : 2 ≤ e := by
      rcases e with _ | _ | e'
      · rw [List.drop_zero] at hjj
        obtain ⟨r, hr⟩ := startsWith_pair (by simpa [mClose] using hjj)
        injection hr with h1
        exact absurd h1 (by decide)
      · have hjj1 : pyStartsWith ('{' :: r'') mClose = true := by simpa using hjj
        obtain ⟨r, hr⟩ := startsWith_pair (by simpa [mClose] using hjj1)
        injection hr with h1
        exact absurd h1 (by decide)
      · omega
    obtain ⟨e'', rfl⟩ : ∃ e'', e = e'' + 2 := ⟨e - 2, by omega⟩
    have hres := cnt_scan_eq r''.length r'' (Nat.le_refl _) e''
      (by simpa using hjj)
      (fun j hj => by simpa using hmin (j + 2) (by omega))
    rw [hl0, hres]
    rfl

theorem splitMarkersGo_cnt : ∀ (fuel : Nat) (s : Str), s.length < fuel →
    (((splitMarkersGo fuel s).filter (fun t => ¬ pyStartsWith t mOpen)).map
      List.length).sum = cntA 0 s := by
  intro fuel
  induction fuel with
  | zero => intro s h; exact absurd h (Nat.not_lt_zero _)
  | succ fuel ih =>
    intro s h
    match s with
    | [] => simp [splitMarkersGo, cntA]
    | c :: cs =>
      have hcons := smConsume c cs
      have hrec := ih (((c :: cs).drop (smStart (c :: cs))).drop
          (smStop ((c :: cs).drop (smStart (c :: cs)))))
        (Nat.lt_of_lt_of_le hcons (Nat.lt_succ_iff.mp h))
      simp only [splitMarkersGo]
      rcases hfind : findSub (c :: cs) mOpen with _ | i
      · have hstart : smStart (c :: cs) = (c :: cs).length := by
          unfold smStart; rw [hfind]; rfl
        have hrest : (c :: cs).drop (smStart (c :: cs)) = [] := by
          rw [hstart, List.drop_length]
        have h0 : 0 < smStart (c :: cs) := by rw [hstart]; simp
        have hnone := findSub_none_spec (l := c :: cs) (by simp [mOpen]) hfind
        have hpre : pyStartsWith ((c :: cs).take (smStart (c :: cs))) mOpen = false := by
          rw [hstart, List.take_length]
          simpa using hnone 0
        have hcnt : cntA 0 (c :: cs) = (c :: cs).length := by
          have hp := cnt0_prefix (c :: cs) [] (fun j _ => by simpa using hnone j)
          simpa [cntA] using hp
        rw [hrest]
        simp [h0, hpre, hcnt, splitMarkersGo_nil,
          startsWith_nil (show mOpen ≠ [] by simp [mOpen]), hstart]
        have hpc : pyStartsWith (c :: cs) mOpen = false := by simpa using hnone 0
        simp [List.filter_cons, hpc, startsWith_nil (show mOpen ≠ [] by simp [mOpen])]
      · have hstart : smStart (c :: cs) = i := by
          unfold smStart; rw [hfind]; rfl
        rw [hstart] at hrec
        have hro : pyStartsWith ((c :: cs).drop i) mOpen = true :=
          findSub_spec_start hfind
        have hmin := findSub_spec_min hfind
        have hilen : i + 2 ≤ (c :: cs).length := by
          have hs := findSub_some_le (by simp [mOpen]) hfind
          simpa [mOpen] using hs
        have hstop2 : 2 ≤ smStop ((c :: cs).drop i) := stop_ge_two hro
        have hmk : pyStartsWith
            (((c :: cs).drop i).take (smStop ((c :: cs).drop i))) mOpen = true := by
          rw [startsWith_take_eq (by simpa [mOpen] using hstop2)]
          exact hro
        have hdrop := cnt_drop_stop hro
        have hlent : ((c :: cs).take i).length = i := by
          rw [List.length_take]; omega
        have hcnt1 : cntA 0 (c :: cs) = i + cntA 0 ((c :: cs).drop i) := by
          have hp := cnt0_prefix ((c :: cs).take i) ((c :: cs).drop i) (fun j hj => by
            rw [List.take_append_drop]
            exact hmin j (by rw [hlent] at hj; exact hj))
          rw [List.take_append_drop, hlent] at hp
          exact hp
        rw [hstart]
        by_cases h0 : 0 < i
        · have hpre : pyStartsWith ((c :: cs).take i) mOpen = false := by
            by_cases h2i : 2 ≤ i
            · rw [startsWith_take_eq (by simpa [mOpen] using h2i)]
              simpa using hmin 0 h0
            · cases hb : pyStartsWith ((c :: cs).take i) mOpen
              · rfl
              · exfalso
                have hlen2 := startsWith_length hb
                rw [hlent] at hlen2
                simp [mOpen] at hlen2
                omega
          simp [h0, hpre, hmk, hlent]
          rw [hcnt1, hdrop]
          simp only [decide_not, Bool.decide_eq_true] at hrec
          have hfuse : List.drop (smStop (List.drop i (c :: cs))) (List.drop i (c :: cs))
              = List.drop (i + smStop (List.drop i (c :: cs))) (c :: cs) := by
            rw [List.drop_drop]
          rw [hfuse] at hrec
          rw [hfuse, hrec]
        · have hi0 : i = 0 := by omega
          subst hi0
          rw [List.drop_zero] at hdrop hrec hmk
          simp [h0, hmk]
          simp only [decide_not, Bool.decide_eq_true] at hrec
          rw [hrec, hcnt1, List.drop_zero, hdrop]
          omega

theorem sum_filter_ne_nil : ∀ (bs : List Str),
    (((bs.filter (fun b => b ≠ [])).filter (fun t => ¬ pyStartsWith t mOpen)).map
      List.length).sum =
    ((bs.filter (fun t => ¬ pyStartsWith t mOpen)).map List.length).sum := by
  intro bs
  induction bs with
  | nil => rfl
  | cons b t ih =>
    by_cases hb : b = []
    · subst hb
      have hnil : pyStartsWith ([] : Str) mOpen = false :=
        startsWith_nil (by simp [mOpen])
      have h1 : List.filter (fun b => b ≠ []) (([] : Str) :: t)
          = List.filter (fun b => b ≠ []) t := by
        rw [List.filter_cons]
        simp
      have h2 : List.filter (fun x => ¬ pyStartsWith x mOpen) (([] : Str) :: t)
          = [] :: List.filter (fun x => ¬ pyStartsWith x mOpen) t := by
        rw [List.filter_cons]
        simp [hnil]
      rw [h1, h2]
      simpa using ih
    · have h1 : List.filter (fun b => b ≠ []) (b :: t)
          = b :: List.filter (fun b => b ≠ []) t := by
        rw [List.filter_cons]
        simp [hb]
      rw [h1]
      by_cases hs : pyStartsWith b mOpen = true
      · have h2 : ∀ r, List.filter (fun x => ¬ pyStartsWith x mOpen) (b :: r)
            = List.filter (fun x => ¬ pyStartsWith x mOpen) r := fun r => by
          rw [List.filter_cons]
          simp [hs]
        rw [h2, h2]
        exact ih
      · have hs' : pyStartsWith b mOpen = false := by
          cases hx : pyStartsWith b mOpen
          · rfl
          · exact absurd hx hs
        have h2 : ∀ r, List.filter (fun x => ¬ pyStartsWith x mOpen) (b :: r)
            = b :: List.filter (fun x => ¬ pyStartsWith x mOpen) r := fun r => by
          rw [List.filter_cons]
          simp [hs']
        rw [h2, h2]
        simp only [List.map_cons, List.sum_cons, ih]

theorem countedLen_eq (l : Str) : countedLen l = cntA 0 l := by
  unfold countedLen split_markers splitMarkersLoop
  rw [sum_filter_ne_nil]
  exact splitMarkersGo_cnt (l.length + 1) l (by omega)

theorem countedLen_le_length (l : Str) : countedLen l ≤ l.length := by
  rw [countedLen_eq]
  have hs := cnt_split l [] 0 (by omega)
  simpa [cntA] using hs

theorem noOpen_take {l : Str} {i : Nat}
    (hmin : ∀ j, j < i → pyStartsWith (l.drop j) mOpen = false) :
    noOpen (l.take i) := by
  intro j
  cases hb : pyStartsWith ((l.take i).drop j) mOpen
  · rfl
  · exfalso
    have hlen := startsWith_length hb
    rw [List.drop_take] at hb hlen
    have h2 : 2 ≤ i - j := by
      simp [mOpen, List.length_take] at hlen
      omega
    rw [startsWith_take_eq (by simpa [mOpen] using h2)] at hb
    have hm := hmin j (by omega)
    rw [hm] at hb
    cases hb

theorem marker_token_shaped {rest : Str} (hro : pyStartsWith rest mOpen = true) :
    markerShaped (rest.take (smStop rest)) := by
  constructor
  · rw [startsWith_take_eq (by simpa [mOpen] using stop_ge_two hro)]
    exact hro
  · intro j hj
    rcases hfc : findSub rest mClose with _ | e
    · have hstop : smStop rest = rest.length := by unfold smStop; rw [hfc]
      rw [hstop, List.take_length] at hj ⊢
      have hn := findSub_none_spec (by simp [mClose]) hfc j
      rw [hn] at hj
      cases hj
    · have hstop : smStop rest = e + 2 := by unfold smStop; rw [hfc]
      rw [hstop] at hj ⊢
      have helen : e + 2 ≤ rest.length := by
        have hs := findSub_some_le (by simp [mClose]) hfc
        simpa [mClose] using hs
      have hlen2 := startsWith_length hj
      have hje : j ≤ e := by
        simp [mClose, List.length_drop, List.length_take] at hlen2
        omega
      rw [List.drop_take] at hj
      rw [startsWith_take_eq (by simp [mClose]; omega)] at hj
      have hmin := findSub_spec_min hfc
      have hge : ¬ j < e := fun hlt => by rw [hmin j hlt] at hj; cases hj
      have hjeq : j = e := by omega
      subst hjeq
      simp [List.length_take]
      omega

theorem splitMarkersGo_tokens : ∀ (fuel : Nat) (s : Str), s.length < fuel →
    ∀ t ∈ splitMarkersGo fuel s,
      (pyStartsWith t mOpen = true → markerShaped t) ∧
      (pyStartsWith t mOpen = false → noOpen t) := by
  intro fuel
  induction fuel with
  | zero => intro s h; exact absurd h (Nat.not_lt_zero _)
  | succ fuel ih =>
    intro s h
    match s with
    | [] => intro t ht; simp [splitMarkersGo] at ht
    | c :: cs =>
      have hrec := ih (((c :: cs).drop (smStart (c :: cs))).drop
          (smStop ((c :: cs).drop (smStart (c :: cs)))))
        (Nat.lt_of_lt_of_le (smConsume c cs) (Nat.lt_succ_iff.mp h))
      intro t ht
      simp only [splitMarkersGo] at ht
      rcases hfind : findSub (c :: cs) mOpen with _ | i
      · have hstart : smStart (c :: cs) = (c :: cs).length := by
          unfold smStart; rw [hfind]; rfl
        have hnone := findSub_none_spec (l := c :: cs) (by simp [mOpen]) hfind
        rw [hstart] at ht
        simp only [List.drop_length, List.take_length, List.take_nil, List.drop_nil,
          splitMarkersGo_nil] at ht
        have h0 : (0 : Nat) < (c :: cs).length := by simp
        rw [if_pos h0] at ht
        simp only [List.singleton_append, List.mem_cons, List.not_mem_nil, or_false] at ht
        rcases ht with rfl | rfl
        · have hz : pyStartsWith (c :: cs) mOpen = false := by simpa using hnone 0
          refine ⟨fun htr => ?_, fun _ j => hnone j⟩
          rw [hz] at htr
          cases htr
        · refine ⟨fun htr => ?_, fun _ j => ?_⟩
          · rw [startsWith_nil (by simp [mOpen])] at htr
            cases htr
          · rw [List.drop_nil, startsWith_nil (by simp [mOpen])]
      · have hstart : smStart (c :: cs) = i := by
          unfold smStart; rw [hfind]; rfl
        rw [hstart] at ht
        have hro : pyStartsWith ((c :: cs).drop i) mOpen = true :=
          findSub_spec_start hfind
        have hmin := findSub_spec_min hfind
        rcases List.mem_append.mp ht with h1 | h2
        · have h0 : 0 < i := by
            by_contra h0
            rw [if_neg h0] at h1
            cases h1
          rw [if_pos h0, List.mem_singleton] at h1
          subst h1
          have hno : noOpen ((c :: cs).take i) := noOpen_take (fun j hj => hmin j hj)
          refine ⟨fun htr => ?_, fun _ => hno⟩
          have hz := hno 0
          rw [List.drop_zero] at hz
          rw [hz] at htr
          cases htr
        · rcases List.mem_cons.mp h2 with rfl | hmem
          · have hsh := marker_token_shaped hro
            refine ⟨fun _ => hsh, fun hf => ?_⟩
            exfalso
            rw [hsh.1] at hf
            cases hf
          · rw [hstart] at hrec
            exact hrec t hmem

theorem split_markers_tokens {s : Str} : ∀ t ∈ split_markers (some s),
    (pyStartsWith t mOpen = true → markerShaped t) ∧
    (pyStartsWith t mOpen = false → noOpen t) := by
  intro t ht
  unfold split_markers splitMarkersLoop at ht
  rw [List.mem_filter] at ht
  exact splitMarkersGo_tokens (s.length + 1) s (by omega) t ht.1

theorem splitOnChar_ne_nil (sep : Char) : ∀ (l : Str), splitOnChar sep l ≠ [] := by
  intro l
  match l with
  | [] => simp [splitOnChar]
  | c :: r =>
    simp only [splitOnChar]
    by_cases hc : c = sep
    · simp [hc]
    · rw [if_neg hc]
      rcases h : splitOnChar sep r with _ | ⟨hh, tt⟩
      · simp
      · simp

theorem splitOnChar_head (sep : Char) : ∀ (l s0 : Str) (rest : List Str),
    splitOnChar sep l = s0 :: rest → ∃ y, l = s0 ++ y := by
  intro l
  induction l with
  | nil =>
    intro s0 rest h
    simp only [splitOnChar] at h
    injection h with h1 _
    exact ⟨[], by rw [← h1]; rfl⟩
  | cons c r ih =>
    intro s0 rest h
    simp only [splitOnChar] at h
    by_cases hc : c = sep
    · rw [if_pos hc] at h
      injection h with h1 _
      exact ⟨c :: r, by rw [← h1]; rfl⟩
    · rw [if_neg hc] at h
      rcases hs : splitOnChar sep r with _ | ⟨hh, tt⟩
      · exact absurd hs (splitOnChar_ne_nil sep r)
      · rw [hs] at h
        injection h with h1 _
        obtain ⟨y, hy⟩ := ih hh tt hs
        exact ⟨y, by rw [← h1, List.cons_append, ← hy]⟩

theorem splitOnChar_infix (sep : Char) : ∀ (l : Str), ∀ sec ∈ splitOnChar sep l,
    ∃ x y, l = x ++ sec ++ y := by
  intro l
  induction l with
  | nil =>
    intro sec hsec
    simp only [splitOnChar, List.mem_singleton] at hsec
    exact ⟨[], [], by simp [hsec]⟩
  | cons c r ih =>
    intro sec hsec
    simp only [splitOnChar] at hsec
    by_cases hc : c = sep
    · rw [if_pos hc] at hsec
      rcases List.mem_cons.mp hsec with rfl | hmem
      · exact ⟨[], c :: r, by simp⟩
      · obtain ⟨x, y, hxy⟩ := ih sec hmem
        exact ⟨c :: x, y, by rw [hxy]; rfl⟩
    · rw [if_neg hc] at hsec
      rcases hs : splitOnChar sep r with _ | ⟨hh, tt⟩
      · exact absurd hs (splitOnChar_ne_nil sep r)
      · rw [hs] at hsec
        rcases List.mem_cons.mp hsec with rfl | hmem
        · obtain ⟨y, hy⟩ := splitOnChar_head sep r hh tt hs
          exact ⟨[], y, by rw [hy]; rfl⟩
        · obtain ⟨x, y, hxy⟩ := ih sec (by rw [hs]; exact List.mem_cons_of_mem _ hmem)
          exact ⟨c :: x, y, by rw [hxy]; rfl⟩

theorem splitOnChar_no_sep (sep : Char) : ∀ (l : Str), sep ∉ l →
    splitOnChar sep l = [l] := by
  intro l
  induction l with
  | nil => intro _; rfl
  | cons c r ih =>
    intro h
    simp only [List.mem_cons, not_or] at h
    simp only [splitOnChar]
    rw [if_neg (fun he => h.1 he.symm), ih h.2]

theorem space_not_open (sec : Str) : pyStartsWith (' ' :: sec) mOpen = false := by
  simp [pyStartsWith, mOpen]

theorem startsWith_drop_append {pat rem : Str} (x : Str) (j : Nat)
    (h : pyStartsWith (rem.drop j) pat = true) :
    pyStartsWith ((x ++ rem).drop (x.length + j)) pat = true := by
  rw [List.drop_append]
  exact h

theorem noOpen_infix {l p : Str} (hno : noOpen l) {x y : Str}
    (heq : l = x ++ (p ++ y)) : noOpen p := by
  intro j
  cases hb : pyStartsWith (p.drop j) mOpen
  · rfl
  · exfalso
    have hlen := startsWith_length hb
    have hjp : j ≤ p.length := by
      simp only [List.length_drop] at hlen
      simp [mOpen] at hlen
      omega
    have h1 : pyStartsWith ((p ++ y).drop j) mOpen = true := by
      rw [List.drop_append_of_le_length hjp]
      exact startsWith_append_left y hb
    have h2 := startsWith_drop_append x j h1
    rw [← heq] at h2
    rw [hno (x.length + j)] at h2
    cases h2

theorem noOpen_drop {l : Str} (h : noOpen l) (k : Nat) : noOpen (l.drop k) := by
  intro j
  rw [List.drop_drop]
  exact h _

theorem jjOnlyTerminal_prefix {m p y : Str} (hm : jjOnlyTerminal m)
    (heq : m = p ++ y) : jjOnlyTerminal p := by
  intro j hj
  have hlen := startsWith_length hj
  have hjp : j + 2 ≤ p.length := by
    simp only [List.length_drop] at hlen
    simp [mClose] at hlen
    omega
  have h1 : pyStartsWith ((p ++ y).drop j) mClose = true := by
    rw [List.drop_append_of_le_length (by omega)]
    exact startsWith_append_left y hj
  rw [← heq] at h1
  have h2 := hm j h1
  have h3 := congrArg List.length heq
  simp only [List.length_append] at h3
  omega

theorem occursIn_append_r {m l : Str} (w : Str) (h : occursIn m l) :
    occursIn m (l ++ w) := by
  obtain ⟨x, y, rfl⟩ := h
  exact ⟨x, y ++ w, by simp⟩

theorem occursIn_cat (cur m : Str) : occursIn m (cur ++ m) :=
  ⟨cur, [], by simp⟩

theorem noOpen_no_occurs {cur m : Str} (hno : noOpen cur)
    (hm : pyStartsWith m mOpen = true) : ¬ occursIn m cur := by
  rintro ⟨x, y, rfl⟩
  have h1 : pyStartsWith (m ++ y) mOpen = true := startsWith_append_left y hm
  have h2 := startsWith_drop_append x 0 (by simpa using h1)
  rw [← List.append_assoc] at h2
  rw [hno (x.length + 0)] at h2
  cases h2

theorem occursIn_containsSub {m l : Str} (h : occursIn m l) :
    containsSub l m = true := by
  obtain ⟨x, y, rfl⟩ := h
  unfold containsSub
  rw [List.any_eq_true]
  refine ⟨x.length, ?_, ?_⟩
  · rw [List.mem_range]
    simp only [List.length_append]
    omega
  · show pyStartsWith ((x ++ m ++ y).drop x.length) m = true
    rw [List.append_assoc, List.drop_left]
    exact startsWith_append_left y (startsWith_self m)

theorem words_marker_shaped {s : Str} :
    ∀ w ∈ wordsOfBlocks (split_markers (some s)),
      pyStartsWith w mOpen = true → markerShaped w := by
  intro w hw hwo
  unfold wordsOfBlocks at hw
  rw [List.mem_flatMap] at hw
  obtain ⟨b, hb, hwb⟩ := hw
  rcases hs : splitOnChar ' ' b with _ | ⟨s0, rest⟩
  · exact absurd hs (splitOnChar_ne_nil ' ' b)
  · rw [hs] at hwb
    simp only [] at hwb
    rcases List.mem_cons.mp hwb with rfl | hmem
    · obtain ⟨y, hy⟩ := splitOnChar_head ' ' b w rest hs
      have hbt := split_markers_tokens b hb
      have hbopen : pyStartsWith b mOpen = true := by
        rw [hy]
        exact startsWith_append_left y hwo
      have hms := hbt.1 hbopen
      exact ⟨hwo, jjOnlyTerminal_prefix hms.2 hy⟩
    · rw [List.mem_map] at hmem
      obtain ⟨sec, _, rfl⟩ := hmem
      rw [space_not_open sec] at hwo
      cases hwo

theorem words_noOpen {s : Str} (hsf : spaceFreeMarkers s) :
    ∀ w ∈ wordsOfBlocks (split_markers (some s)),
      pyStartsWith w mOpen = false → noOpen w := by
  intro w hw hwo
  unfold wordsOfBlocks at hw
  rw [List.mem_flatMap] at hw
  obtain ⟨b, hb, hwb⟩ := hw
  have hbt := split_markers_tokens b hb
  cases hbo : pyStartsWith b mOpen
  · have hnob : noOpen b := hbt.2 hbo
    rcases hs : splitOnChar ' ' b with _ | ⟨s0, rest⟩
    · exact absurd hs (splitOnChar_ne_nil ' ' b)
    · rw [hs] at hwb
      simp only [] at hwb
      rcases List.mem_cons.mp hwb with rfl | hmem
      · obtain ⟨y, hy⟩ := splitOnChar_head ' ' b w rest hs
        exact noOpen_infix hnob (x := []) (by simpa using hy)
      · rw [List.mem_map] at hmem
        obtain ⟨sec, hsec, rfl⟩ := hmem
        obtain ⟨x, y, hxy⟩ := splitOnChar_infix ' ' b sec
          (by rw [hs]; exact List.mem_cons_of_mem _ hsec)
        have hnosec : noOpen sec := noOpen_infix hnob (x := x) (y := y)
          (by rw [hxy]; simp)
        intro j
        cases j with
        | zero => simpa using space_not_open sec
        | succ j' => simpa using hnosec j'
  · have hnospace : ' ' ∉ b := hsf b hb hbo
    rw [splitOnChar_no_sep ' ' b hnospace] at hwb
    simp only [] at hwb
    rcases List.mem_cons.mp hwb with rfl | hmem
    · rw [hbo] at hwo
      cases hwo
    · simp at hmem

theorem marker_token_mem_words {s t : Str} (ht : t ∈ split_markers (some s))
    (hns : ' ' ∉ t) :
    t ∈ wordsOfBlocks (split_markers (some s)) := by
  unfold wordsOfBlocks
  rw [List.mem_flatMap]
  refine ⟨t, ht, ?_⟩
  rw [splitOnChar_no_sep ' ' t hns]
  simp

theorem wrapGo_bound (width : Nat) (hw : 2 ≤ width) :
    ∀ (fuel : Nat) (words done : List Str) (ps : List (Bool × Str)) (size : Nat),
      size + (words.map (fun w => w.length + 1)).sum < fuel →
      piecesWeight ps = size →
      (∀ p ∈ ps, p.1 = true → markerShaped p.2) →
      (width < size → ∃ w, ps = [(false, w)] ∧ w.length = size) →
      (∀ w ∈ words, pyStartsWith w mOpen = true → markerShaped w) →
      (∀ l ∈ done, countedLen l ≤ width) →
      ∀ l ∈ wrapGo width fuel words done (piecesStr ps) size, countedLen l ≤ width := by
  intro fuel
  induction fuel with
  | zero =>
    intro words done ps size hfuel _ _ _ _ _
    exact absurd hfuel (Nat.not_lt_zero _)
  | succ fuel ih =>
    intro words done ps size hfuel hwt hmk hsingle hwords hdone
    simp only [wrapGo]
    by_cases hbig : width < size
    · rw [if_pos hbig]
      obtain ⟨w, rfl, hwlen⟩ := hsingle hbig
      have hcur : piecesStr [(false, w)] = w := by simp [piecesStr]
      rw [hcur]
      have hlo : (w.drop (w.length - (size - width + 1))).length = size - width + 1 := by
        rw [List.length_drop]
        omega
      have hlinew : (w.take (w.length - (size - width + 1)) ++ ['-']).length = width := by
        have hk : w.length - (size - width + 1) ≤ w.length := by omega
        simp [List.length_take, List.length_append, Nat.min_eq_left hk]
        omega
      have hstep := ih words
        ((w.take (w.length - (size - width + 1)) ++ ['-']) :: done)
        [(false, w.drop (w.length - (size - width + 1)))]
        (size - width + 1)
        (by omega)
        (by simp [piecesWeight, hlo])
        (by rintro ⟨pb, pw⟩ hp ht
            simp at hp
            rw [hp.1] at ht
            cases ht)
        (fun _ => ⟨_, rfl, hlo⟩)
        hwords
        (by intro l hl
            rcases List.mem_cons.mp hl with rfl | hd
            · exact le_of_le_of_eq (countedLen_le_length _) hlinew
            · exact hdone l hd)
      rw [show piecesStr [(false, w.drop (w.length - (size - width + 1)))]
          = w.drop (w.length - (size - width + 1)) from by simp [piecesStr]] at hstep
      exact hstep
    · rw [if_neg hbig]
      cases words with
      | nil =>
        simp only []
        intro l hl
        rw [List.mem_reverse] at hl
        rcases List.mem_cons.mp hl with rfl | hd
        · have hb := cnt_pieces ps hmk 0 (by omega)
          have hb' : cntA 0 (piecesStr ps) ≤ piecesWeight ps := by simpa using hb
          rw [countedLen_eq]
          omega
        · exact hdone l hd
      | cons w ws =>
        simp only []
        simp only [List.map_cons, List.sum_cons] at hfuel
        by_cases hmo : pyStartsWith w mOpen = true
        · rw [if_pos hmo]
          rw [show piecesStr ps ++ w = piecesStr (ps ++ [(true, w)]) from
            by simp [piecesStr]]
          exact ih ws done (ps ++ [(true, w)]) size
            (by omega)
            (by rw [show piecesWeight (ps ++ [(true, w)]) = piecesWeight ps from by
                  simp [piecesWeight, List.filter_append]]
                exact hwt)
            (by intro p hp ht
                rcases List.mem_append.mp hp with h | h
                · exact hmk p h ht
                · simp at h
                  rw [h]
                  exact hwords w (List.mem_cons_self w ws) hmo)
            (fun hc => absurd hc hbig)
            (fun w' hw' => hwords w' (List.mem_cons_of_mem _ hw'))
            hdone
        · rw [if_neg hmo]
          by_cases hfull : width < size + w.length
          · rw [if_pos hfull]
            have hdone' : ∀ l ∈ piecesStr ps :: done, countedLen l ≤ width := by
              intro l hl
              rcases List.mem_cons.mp hl with rfl | hd
              · have hb := cnt_pieces ps hmk 0 (by omega)
                have hb' : cntA 0 (piecesStr ps) ≤ piecesWeight ps := by simpa using hb
                rw [countedLen_eq]
                omega
              · exact hdone l hd
            have hcwlen : (if pyStartsWith w [' '] then w.drop 1 else w).length
                ≤ w.length := by
              by_cases hsp : pyStartsWith w [' '] = true
              · rw [if_pos hsp]
                simp
              · rw [if_neg hsp]
            have hstep := ih ws (piecesStr ps :: done)
              [(false, if pyStartsWith w [' '] then w.drop 1 else w)]
              (if pyStartsWith w [' '] then w.drop 1 else w).length
              (by omega)
              (by simp [piecesWeight])
              (by rintro ⟨pb, pw⟩ hp ht
                  simp at hp
                  rw [hp.1] at ht
                  cases ht)
              (fun _ => ⟨_, rfl, rfl⟩)
              (fun w' hw' => hwords w' (List.mem_cons_of_mem _ hw'))
              hdone'
            rw [show piecesStr [(false, if pyStartsWith w [' '] then w.drop 1 else w)]
                = (if pyStartsWith w [' '] then w.drop 1 else w) from
              by simp [piecesStr]] at hstep
            exact hstep
          · rw [if_neg hfull]
            rw [show piecesStr ps ++ w = piecesStr (ps ++ [(false, w)]) from
              by simp [piecesStr]]
            exact ih ws done (ps ++ [(false, w)]) (size + w.length)
              (by omega)
              (by rw [show piecesWeight (ps ++ [(false, w)])
                      = piecesWeight ps + w.length from by
                    simp [piecesWeight, List.filter_append]]
                  omega)
              (by intro p hp ht
                  rcases List.mem_append.mp hp with h | h
                  · exact hmk p h ht
                  · simp at h
                    rw [h] at ht
                    simp at ht)
              (fun hc => absurd hc hfull)
              (fun w' hw' => hwords w' (List.mem_cons_of_mem _ hw'))
              hdone

theorem wrapGo_occurs (width : Nat) (hw : 2 ≤ width) (m : Str)
    (hm : pyStartsWith m mOpen = true) :
    ∀ (fuel : Nat) (words done : List Str) (ps : List (Bool × Str)) (size : Nat),
      size + (words.map (fun w => w.length + 1)).sum < fuel →
      (∀ p ∈ ps, p.1 = false → noOpen p.2) →
      (width < size → ∃ w, ps = [(false, w)] ∧ w.length = size) →
      (∀ w ∈ words, pyStartsWith w mOpen = false → noOpen w) →
      (m ∈ words ∨ occursIn m (piecesStr ps) ∨ ∃ l ∈ done, occursIn m l) →
      ∃ l ∈ wrapGo width fuel words done (piecesStr ps) size, occursIn m l := by
  intro fuel
  induction fuel with
  | zero =>
    intro words done ps size hfuel _ _ _ _
    exact absurd hfuel (Nat.not_lt_zero _)
  | succ fuel ih =>
    intro words done ps size hfuel hops hsingle hwords hocc
    simp only [wrapGo]
    by_cases hbig : width < size
    · rw [if_pos hbig]
      obtain ⟨w, rfl, hwlen⟩ := hsingle hbig
      have hcur : piecesStr [(false, w)] = w := by simp [piecesStr]
      rw [hcur]
      rw [hcur] at hocc
      have hw0 : noOpen w := hops (false, w) (List.mem_singleton.mpr rfl) rfl
      have hlo : (w.drop (w.length - (size - width + 1))).length = size - width + 1 := by
        rw [List.length_drop]
        omega
      have hocc' : m ∈ words ∨
          occursIn m (w.drop (w.length - (size - width + 1))) ∨
          ∃ l ∈ (w.take (w.length - (size - width + 1)) ++ ['-']) :: done,
            occursIn m l := by
        rcases hocc with h | h | ⟨l, hl, ho⟩
        · exact Or.inl h
        · exact absurd h (noOpen_no_occurs hw0 hm)
        · exact Or.inr (Or.inr ⟨l, List.mem_cons_of_mem _ hl, ho⟩)
      have hstep := ih words
        ((w.take (w.length - (size - width + 1)) ++ ['-']) :: done)
        [(false, w.drop (w.length - (size - width + 1)))]
        (size - width + 1)
        (by omega)
        (by rintro ⟨pb, pw⟩ hp _
            simp at hp
            rw [hp.2]
            exact noOpen_drop hw0 _)
        (fun _ => ⟨_, rfl, hlo⟩)
        hwords
        (by rw [show piecesStr [(false, w.drop (w.length - (size - width + 1)))]
              = w.drop (w.length - (size - width + 1)) from by simp [piecesStr]]
            exact hocc')
      rw [show piecesStr [(false, w.drop (w.length - (size - width + 1)))]
          = w.drop (w.length - (size - width + 1)) from by simp [piecesStr]] at hstep
      exact hstep
    · rw [if_neg hbig]
      cases words with
      | nil =>
        simp only []
        rcases hocc with h | h | ⟨l, hl, ho⟩
        · cases h
        · exact ⟨piecesStr ps, List.mem_reverse.mpr (List.mem_cons_self _ _), h⟩
        · exact ⟨l, List.mem_reverse.mpr (List.mem_cons_of_mem _ hl), ho⟩
      | cons w ws =>
        simp only []
        simp only [List.map_cons, List.sum_cons] at hfuel
        by_cases hmo : pyStartsWith w mOpen = true
        · rw [if_pos hmo]
          rw [show piecesStr ps ++ w = piecesStr (ps ++ [(true, w)]) from
            by simp [piecesStr]]
          apply ih ws done (ps ++ [(true, w)]) size
            (by omega)
            (by intro p hp hf
                rcases List.mem_append.mp hp with h | h
                · exact hops p h hf
                · simp at h
                  rw [h] at hf
                  simp at hf)
            (fun hc => absurd hc hbig)
            (fun w' hw' => hwords w' (List.mem_cons_of_mem _ hw'))
          rw [show piecesStr (ps ++ [(true, w)]) = piecesStr ps ++ w from
            by simp [piecesStr]]
          rcases hocc with h | h | ⟨l, hl, ho⟩
          · rcases List.mem_cons.mp h with rfl | hmem
            · exact Or.inr (Or.inl (occursIn_cat _ m))
            · exact Or.inl hmem
          · exact Or.inr (Or.inl (occursIn_append_r w h))
          · exact Or.inr (Or.inr ⟨l, hl, ho⟩)
        · have hmo' : pyStartsWith w mOpen = false := by simpa using hmo
          rw [if_neg hmo]
          have hnow : noOpen w := hwords w (List.mem_cons_self w ws) hmo'
          by_cases hfull : width < size + w.length
          · rw [if_pos hfull]
            have hnocw : noOpen (if pyStartsWith w [' '] then w.drop 1 else w) := by
              by_cases hsp : pyStartsWith w [' '] = true
              · rw [if_pos hsp]
                exact noOpen_drop hnow 1
              · rw [if_neg hsp]
                exact hnow
            have hstep := ih ws (piecesStr ps :: done)
              [(false, if pyStartsWith w [' '] then w.drop 1 else w)]
              (if pyStartsWith w [' '] then w.drop 1 else w).length
              (by have : (if pyStartsWith w [' '] then w.drop 1 else w).length
                    ≤ w.length := by
                    by_cases hsp : pyStartsWith w [' '] = true
                    · rw [if_pos hsp]
                      simp
                    · rw [if_neg hsp]
                  omega)
              (by rintro p hp _
                  rw [List.mem_singleton] at hp
                  rw [hp]
                  exact hnocw)
              (fun _ => ⟨_, rfl, rfl⟩)
              (fun w' hw' => hwords w' (List.mem_cons_of_mem _ hw'))
              (by rw [show piecesStr [(false, if pyStartsWith w [' '] then w.drop 1 else w)]
                    = (if pyStartsWith w [' '] then w.drop 1 else w) from by simp [piecesStr]]
                  rcases hocc with h | h | ⟨l, hl, ho⟩
                  · rcases List.mem_cons.mp h with rfl | hmem
                    · rw [hm] at hmo'
                      cases hmo'
                    · exact Or.inl hmem
                  · exact Or.inr (Or.inr ⟨piecesStr ps, List.mem_cons_self _ _, h⟩)
                  · exact Or.inr (Or.inr ⟨l, List.mem_cons_of_mem _ hl, ho⟩))
            rw [show piecesStr [(false, if pyStartsWith w [' '] then w.drop 1 else w)]
                = (if pyStartsWith w [' '] then w.drop 1 else w) from
              by simp [piecesStr]] at hstep
            exact hstep
          · rw [if_neg hfull]
            rw [show piecesStr ps ++ w = piecesStr (ps ++ [(false, w)]) from
              by simp [piecesStr]]
            apply ih ws done (ps ++ [(false, w)]) (size + w.length)
              (by omega)
              (by intro p hp hf
                  rcases List.mem_append.mp hp with h | h
                  · exact hops p h hf
                  · simp at h
                    rw [h]
                    exact hnow)
              (fun hc => absurd hc hfull)
              (fun w' hw' => hwords w' (List.mem_cons_of_mem _ hw'))
            rw [show piecesStr (ps ++ [(false, w)]) = piecesStr ps ++ w from
              by simp [piecesStr]]
            rcases hocc with h | h | ⟨l, hl, ho⟩
            · rcases List.mem_cons.mp h with rfl | hmem
              · rw [hm] at hmo'
                cases hmo'
              · exact Or.inl hmem
            · exact Or.inr (Or.inl (occursIn_append_r w h))
            · exact Or.inr (Or.inr ⟨l, hl, ho⟩)

theorem split_into_lines_eq (s : Str) (width : Nat) (hw : 2 ≤ width) :
    split_into_lines (some s) width =
      (wrapGo width (wrapFuel (wordsOfBlocks (split_markers (some s))) 0)
        (wordsOfBlocks (split_markers (some s))) [] [] 0).filter
        (fun l => l ≠ []) := by
  unfold split_into_lines
  simp only []
  rw [if_neg (by omega)]

/-- Claim C2, counterexample to the contiguity half.  The input consists of a
single marker token containing a space; at width 2 the wrapper splits that
token across all four output lines (none of which contains the token as a
contiguous substring), because the space-split turns the marker's tail into
ordinary counted words. -/
theorem C2_counterexample :
    split_markers (some (strLit "\x7b\x7baa bb\x7d\x7d"))
      = [strLit "\x7b\x7baa bb\x7d\x7d"] ∧
    pyStartsWith (strLit "\x7b\x7baa bb\x7d\x7d") mOpen = true ∧
    split_into_lines (some (strLit "\x7b\x7baa bb\x7d\x7d")) 2
      = [strLit "\x7b\x7baa", strLit "b-", strLit "b-", strLit "\x7d\x7d"] ∧
    (split_into_lines (some (strLit "\x7b\x7baa bb\x7d\x7d")) 2).all
      (fun l => !containsSub l (strLit "\x7b\x7baa bb\x7d\x7d")) = true := by
  decide

/-- Claim C2, amended.  For every input and width at least 2, every line
produced by `split_into_lines` has counted length (marker tokens excluded
from the count) at most the width; and provided no marker token of the
input contains a space, every marker token appears contiguously within a
single output line. -/
theorem C2_wrap_invariant (s : Str) (width : Nat) (hw : 2 ≤ width) :
    (∀ l ∈ split_into_lines (some s) width, countedLen l ≤ width) ∧
    (spaceFreeMarkers s →
      ∀ t ∈ split_markers (some s), pyStartsWith t mOpen = true →
        ∃ l ∈ split_into_lines (some s) width, occursIn t l) := by
  have hred := split_into_lines_eq s width hw
  constructor
  · intro l hl
    rw [hred] at hl
    have hl' := (List.mem_filter.mp hl).1
    have hb := wrapGo_bound width hw
      (wrapFuel (wordsOfBlocks (split_markers (some s))) 0)
      (wordsOfBlocks (split_markers (some s))) [] [] 0
      (by unfold wrapFuel; omega)
      (by simp [piecesWeight])
      (by intro p hp; cases hp)
      (by intro hc; omega)
      words_marker_shaped
      (by intro l' hl'; cases hl')
    rw [show piecesStr ([] : List (Bool × Str)) = ([] : Str) from rfl] at hb
    exact hb l hl'
  · intro hsf t ht hto
    have hns : ' ' ∉ t := hsf t ht hto
    have hmem : t ∈ wordsOfBlocks (split_markers (some s)) :=
      marker_token_mem_words ht hns
    have ho := wrapGo_occurs width hw t hto
      (wrapFuel (wordsOfBlocks (split_markers (some s))) 0)
      (wordsOfBlocks (split_markers (some s))) [] [] 0
      (by unfold wrapFuel; omega)
      (by intro p hp; cases hp)
      (by intro hc; omega)
      (words_noOpen hsf)
      (Or.inl hmem)
    rw [show piecesStr ([] : List (Bool × Str)) = ([] : Str) from rfl] at ho
    obtain ⟨l, hl, hocc⟩ := ho
    refine ⟨l, ?_, hocc⟩
    rw [hred, List.mem_filter]
    refine ⟨hl, ?_⟩
    apply decide_eq_true
    intro heq
    obtain ⟨x, y, rfl⟩ := hocc
    have hlen : 2 ≤ t.length := by simpa [mOpen] using startsWith_length hto
    have hlen2 := congrArg List.length heq
    simp only [List.length_append, List.length_nil] at hlen2
    omega

/-- Claim C2, witness: at width 3 on input `ab SPACE OPEN2.0CLOSE SPACE cdef`
(markers space-free) the hyphenated line `cd-` respects the counted width
bound, and the marker token occurs contiguously in an output line. -/
theorem C2_wrap_invariant_witness :
    countedLen (strLit "cd-") ≤ 3 ∧
    (∃ l ∈ split_into_lines (some (strLit "ab \x7b\x7b2.0\x7d\x7d cdef")) 3,
      occursIn (strLit "\x7b\x7b2.0\x7d\x7d") l) := by
  constructor
  · exact (C2_wrap_invariant (strLit "ab \x7b\x7b2.0\x7d\x7d cdef") 3 (by omega)).1
      (strLit "cd-") (by decide)
  · exact (C2_wrap_invariant (strLit "ab \x7b\x7b2.0\x7d\x7d cdef") 3 (by omega)).2
      (by unfold spaceFreeMarkers; decide) (strLit "\x7b\x7b2.0\x7d\x7d")
      (by decide) (by decide)
